import Mathlib

/-!
Verification of the skill-extraction / normalization / fuzzy-matching engine
of the ats_logiscareers repository (`backend/api/utils.py`, plus the highlight
builder of `backend/api/views.py::check_score`).

Python strings are modelled as Lean `String`/`List Char` (ASCII semantics for
`str.lower`, `\w`, `\s`, which covers the entire taxonomy and all inputs the
claims are about), Python floats as exact rationals `ℚ`, Python dicts as
insertion-ordered association lists, and `difflib.SequenceMatcher.ratio`
(no junk: all strings involved are far below the 200-character autojunk
threshold) by the Ratcliff–Obershelp total-match count.  The external SpaCy
model is an oracle: `extract_skills` takes the list of entities the model
proposed as an explicit argument.
-/

/-- ASCII model of Python `str.lower` on a single character: basic latin
upper-case letters are shifted by 32, everything else is unchanged
(mirrors `Char.toLower`). -/
def pyToLower (c : Char) : Char :=
  if 65 ≤ c.toNat ∧ c.toNat ≤ 90 then Char.ofNat (c.toNat + 32) else c

/-- Model of Python `str.lower` on a whole string. -/
def pyLower (s : String) : String :=
  ⟨s.data.map pyToLower⟩

/-- ASCII model of Python whitespace (the class `\s`): space, tab, newline,
carriage return, vertical tab, form feed. -/
def pySpace (c : Char) : Bool :=
  c == ' ' || c == '\t' || c == '\n' || c == '\r' || c == '\x0b' || c == '\x0c'

/-- Drop leading and trailing whitespace from a character list
(model of Python `str.strip()`). -/
def pyStripL (l : List Char) : List Char :=
  (((l.dropWhile pySpace).reverse.dropWhile pySpace)).reverse

/-- Model of Python `str.strip()`. -/
def pyStrip (s : String) : String :=
  ⟨pyStripL s.data⟩

/-- Composite `skill.lower().strip()` used by `normalize_skill`. -/
def pyLowerStrip (s : String) : String :=
  pyStrip (pyLower s)

/-- ASCII model of the regex class `\w`: letters, digits, underscore. -/
def wordChar (c : Char) : Bool :=
  c.isAlpha || c.isDigit || c == '_'

/-- `SKILL_SYNONYMS` from `backend/api/utils.py` (lines 26-179): maps
variant spellings to canonical skill names, in source order. -/
def SKILL_SYNONYMS : List (String × String) :=
  [("js", "javascript"), ("es6", "javascript"), ("es2015", "javascript"),
   ("ecmascript", "javascript"),
   ("ts", "typescript"),
   ("react.js", "react"), ("reactjs", "react"), ("react js", "react"),
   ("vue.js", "vuejs"), ("vue js", "vuejs"),
   ("angular.js", "angular"), ("angularjs", "angular"), ("angular js", "angular"),
   ("node.js", "nodejs"), ("node js", "nodejs"), ("node", "nodejs"),
   ("next.js", "nextjs"), ("next js", "nextjs"),
   ("python3", "python"), ("python 3", "python"), ("py", "python"),
   ("postgres", "postgresql"), ("psql", "postgresql"), ("pg", "postgresql"),
   ("mongo", "mongodb"),
   ("k8s", "kubernetes"), ("kube", "kubernetes"),
   ("amazon web services", "aws"), ("amazon aws", "aws"),
   ("google cloud platform", "gcp"), ("google cloud", "gcp"),
   ("ml", "machine learning"), ("machine-learning", "machine learning"),
   ("artificial intelligence", "ai"),
   ("dl", "deep learning"), ("deep-learning", "deep learning"),
   ("natural language processing", "nlp"),
   ("cpp", "c++"), ("cplusplus", "c++"),
   ("csharp", "c#"), ("c sharp", "c#"),
   ("dotnet", ".net"), ("dot net", ".net"),
   ("ci/cd", "cicd"), ("ci-cd", "cicd"), ("continuous integration", "cicd"),
   ("continuous deployment", "cicd"),
   ("rest api", "restful"), ("rest apis", "restful"), ("restful api", "restful"),
   ("unit test", "unit testing"), ("unit tests", "unit testing"),
   ("unittest", "unit testing"),
   ("agile methodology", "agile"), ("agile development", "agile"),
   ("object oriented programming", "oop"), ("object-oriented programming", "oop"),
   ("object oriented", "oop"),
   ("data structure", "data structures"), ("dsa", "data structures"),
   ("scikit learn", "sklearn"), ("scikit-learn", "sklearn"),
   ("tensor flow", "tensorflow"), ("tensor-flow", "tensorflow"),
   ("py torch", "pytorch"),
   ("fast api", "fastapi"), ("fast-api", "fastapi"),
   ("springboot", "spring boot"), ("spring-boot", "spring boot"),
   ("rails", "ruby on rails"), ("ror", "ruby on rails"),
   ("react-native", "react native"), ("reactnative", "react native"),
   ("powerbi", "power bi"), ("power-bi", "power bi"),
   ("github-actions", "github actions"), ("gh actions", "github actions"),
   ("sr", "senior"), ("sr.", "senior"), ("jr", "junior"), ("jr.", "junior")]

/-- Lookup in the synonym table: `SKILL_SYNONYMS.get(k)`. -/
def synLookup (k : String) : Option String :=
  (SKILL_SYNONYMS.find? (fun p => decide (p.1 = k))).map (fun p => p.2)

/-- `SKILL_SYNONYMS.get(k, k)`: canonical form of a token, the token itself
when it is not a synonym key. -/
def synGet (k : String) : String :=
  match synLookup k with
  | some v => v
  | none => k

/-- `SKILL_WEIGHTS` from `backend/api/utils.py` (lines 192-228). -/
def SKILL_WEIGHTS : List (String × ℚ) :=
  [("kubernetes", 1.5), ("docker", 1.3), ("aws", 1.4), ("gcp", 1.4),
   ("azure", 1.4), ("terraform", 1.5), ("machine learning", 1.5),
   ("deep learning", 1.6), ("pytorch", 1.5), ("tensorflow", 1.5),
   ("nlp", 1.5), ("computer vision", 1.6), ("microservices", 1.3),
   ("system design", 1.4), ("spark", 1.4), ("kafka", 1.4),
   ("elasticsearch", 1.3), ("graphql", 1.3), ("rust", 1.4), ("go", 1.3),
   ("scala", 1.3),
   ("git", 0.8), ("html", 0.7), ("css", 0.7), ("sql", 0.9), ("agile", 0.8),
   ("jira", 0.7), ("slack", 0.5), ("excel", 0.6)]

/-- `SKILL_WEIGHTS.get(canonical, 1.0)`. -/
def weightOf (c : String) : ℚ :=
  match SKILL_WEIGHTS.find? (fun p => decide (p.1 = c)) with
  | some p => p.2
  | none => 1.0

/-- `TECH_SKILLS` from `backend/api/utils.py` (lines 232-293), in source
order (duplicates included, as in the source). -/
def TECH_SKILLS : List String :=
  ["python", "java", "javascript", "typescript", "c++", "c#", "ruby", "go",
   "golang", "rust", "php", "swift", "kotlin", "scala", "r", "matlab",
   "perl", "bash", "shell", "powershell", "lua", "dart", "objective-c",
   "groovy", "cobol", "fortran", "haskell",
   "django", "flask", "fastapi", "react", "reactjs", "react.js", "angular",
   "angularjs", "vue", "vuejs", "vue.js", "next.js", "nextjs", "nuxt",
   "nuxtjs", "express", "expressjs", "node", "nodejs", "node.js", "spring",
   "spring boot", "springboot", "laravel", "rails", "ruby on rails",
   "asp.net", ".net", "dotnet", "symfony", "codeigniter", "gatsby",
   "svelte", "ember", "backbone", "jquery", "bootstrap", "tailwind",
   "tailwindcss", "material-ui", "chakra", "ant design", "redux", "mobx",
   "graphql", "rest", "restful",
   "sql", "mysql", "postgresql", "postgres", "mongodb", "redis",
   "elasticsearch", "cassandra", "oracle", "sqlite", "mariadb", "dynamodb",
   "firebase", "firestore", "couchdb", "neo4j", "memcached", "mssql",
   "sql server", "aurora", "cockroachdb",
   "aws", "amazon web services", "azure", "gcp", "google cloud", "docker",
   "kubernetes", "k8s", "jenkins", "terraform", "ansible", "puppet", "chef",
   "circleci", "travis ci", "github actions", "gitlab ci", "bitbucket",
   "heroku", "digitalocean", "vercel", "netlify", "cloudflare", "nginx",
   "apache", "linux", "ubuntu", "centos", "redhat", "windows server",
   "vmware", "vagrant", "prometheus", "grafana", "datadog", "splunk",
   "elk", "logstash", "kibana", "cloudformation", "pulumi", "helm",
   "istio", "argocd",
   "machine learning", "deep learning", "artificial intelligence", "ai",
   "ml", "tensorflow", "pytorch", "keras", "scikit-learn", "sklearn",
   "pandas", "numpy", "scipy", "matplotlib", "seaborn", "plotly",
   "jupyter", "anaconda", "opencv", "nlp", "natural language processing",
   "computer vision", "neural networks", "transformers", "hugging face",
   "bert", "gpt", "llm", "langchain", "openai", "spacy", "nltk", "xgboost",
   "lightgbm", "catboost", "spark", "pyspark", "hadoop", "hive", "kafka",
   "airflow", "mlflow", "kubeflow", "sagemaker", "databricks",
   "android", "ios", "react native", "flutter", "xamarin", "ionic",
   "cordova", "swift ui", "swiftui", "jetpack compose",
   "mobile development",
   "git", "github", "gitlab", "bitbucket", "svn", "mercurial", "jira",
   "confluence", "trello", "asana", "slack", "teams", "agile", "scrum",
   "kanban", "ci/cd", "cicd",
   "unit testing", "integration testing", "selenium", "cypress", "jest",
   "mocha", "pytest", "unittest", "testng", "junit", "postman", "swagger",
   "api testing", "load testing", "performance testing", "qa",
   "quality assurance", "tdd", "bdd",
   "cybersecurity", "penetration testing", "owasp", "ssl", "tls", "oauth",
   "jwt", "encryption", "authentication", "authorization", "sso", "ldap",
   "active directory",
   "microservices", "api", "websocket", "soap", "grpc", "rabbitmq",
   "celery", "asyncio", "multithreading", "concurrency", "design patterns",
   "oop", "functional programming", "data structures", "algorithms",
   "system design", "html", "css", "sass", "scss", "less", "webpack",
   "babel", "vite", "parcel", "npm", "yarn", "pip", "maven", "gradle",
   "make", "cmake", "json", "xml", "yaml", "csv", "excel", "power bi",
   "tableau", "looker", "etl", "data warehouse", "snowflake", "redshift",
   "bigquery", "dbt", "fivetran", "stitch"]

/-- `TECH_SKILLS_SET = set(skill.lower() for skill in TECH_SKILLS)`:
membership is all that is ever asked of it, so a list model suffices. -/
def TECH_SKILLS_SET : List String :=
  TECH_SKILLS.map pyLower

/-- `normalize_skill` (utils.py lines 415-426): lower-case, strip, then
resolve through the synonym table, with the token itself as fallback. -/
def normalize_skill (skill : String) : String :=
  synGet (pyLowerStrip skill)

/-- Characters `a[i : i+k]` of a list. -/
def pySlice (l : List Char) (i k : Nat) : List Char :=
  (l.drop i).take k

/-- Whether `a` and `b` have a common block of length `k` inside the windows
`[alo, ahi)` and `[blo, bhi)`. -/
def hasBlock (a b : List Char) (alo ahi blo bhi k : Nat) : Bool :=
  (List.range (ahi + 1)).any fun i =>
    decide (alo ≤ i) && decide (i + k ≤ ahi) &&
      ((List.range (bhi + 1)).any fun j =>
        decide (blo ≤ j) && decide (j + k ≤ bhi) &&
          decide (pySlice a i k = pySlice b j k))

/-- Length of the longest matching block inside the given windows
(`SequenceMatcher.find_longest_match` with empty junk sets). -/
def bestSize (a b : List Char) (alo ahi blo bhi : Nat) : Nat :=
  Nat.findGreatest (fun k => hasBlock a b alo ahi blo bhi k = true)
    (min (ahi - alo) (bhi - blo))

/-- Start indices of the winning maximal block: earliest start in `a`, then
earliest start in `b`, which is difflib's tie-break. -/
def bestIdx (a b : List Char) (alo ahi blo bhi : Nat) : Nat × Nat :=
  let k := bestSize a b alo ahi blo bhi
  match (List.range (ahi + 1)).find? (fun i =>
      decide (alo ≤ i) && decide (i + k ≤ ahi) &&
        ((List.range (bhi + 1)).any fun j =>
          decide (blo ≤ j) && decide (j + k ≤ bhi) &&
            decide (pySlice a i k = pySlice b j k))) with
  | none => (alo, blo)
  | some i =>
    match (List.range (bhi + 1)).find? (fun j =>
        decide (blo ≤ j) && decide (j + k ≤ bhi) &&
          decide (pySlice a i k = pySlice b j k)) with
    | none => (alo, blo)
    | some j => (i, j)

/-- Total number of matched characters in the recursive Ratcliff–Obershelp
block decomposition (`SequenceMatcher.get_matching_blocks`, junk-free).
`fuel` dominates the recursion depth; the top-level call supplies the
combined window size plus one, which suffices because every recursive call
strictly shrinks the combined window. -/
def matchTotalGo (a b : List Char) : Nat → Nat → Nat → Nat → Nat → Nat
  | 0, _, _, _, _ => 0
  | fuel + 1, alo, ahi, blo, bhi =>
    let k := bestSize a b alo ahi blo bhi
    if k = 0 then 0
    else
      let ij := bestIdx a b alo ahi blo bhi
      k + matchTotalGo a b fuel alo ij.1 blo ij.2 +
        matchTotalGo a b fuel (ij.1 + k) ahi (ij.2 + k) bhi

def matchTotal (a b : List Char) : Nat :=
  matchTotalGo a b (a.length + b.length + 1) 0 a.length 0 b.length

/-- `difflib.SequenceMatcher(None, a, b).ratio()`: `2*M / (len(a)+len(b))`,
and `1.0` when both strings are empty. -/
def seqRatio (a b : String) : ℚ :=
  if a.data.length + b.data.length = 0 then 1
  else (2 * (matchTotal a.data b.data : ℚ)) / ((a.data.length : ℚ) + (b.data.length : ℚ))

/-- One pass of the `fuzzy_match_skill` candidate loop (utils.py 445-460),
carrying the `(best_match, best_ratio)` accumulator. -/
def fuzzyLoop (skill_lower : String) (threshold : ℚ) :
    List String → Option String × ℚ → Option String × ℚ
  | [], acc => acc
  | candidate :: rest, acc =>
    let cl := pyLower candidate
    if skill_lower = cl then (some candidate, 1)
    else if normalize_skill skill_lower = normalize_skill cl then (some candidate, 1)
    else
      let r := seqRatio skill_lower cl
      if acc.2 < r ∧ threshold ≤ r then
        fuzzyLoop skill_lower threshold rest (some candidate, r)
      else fuzzyLoop skill_lower threshold rest acc

/-- `fuzzy_match_skill` (utils.py 429-462). -/
def fuzzy_match_skill (skill : String) (skill_list : List String) (threshold : ℚ) :
    Option String × ℚ :=
  fuzzyLoop (pyLower skill) threshold skill_list (none, 0)

/-- Insert into an insertion-ordered dict: an existing key keeps its position
and receives the new value, a new key is appended (CPython dict update). -/
def dictUpd {α : Type} (d : List (String × α)) (k : String) (v : α) : List (String × α) :=
  if d.any (fun p => decide (p.1 = k)) then
    d.map (fun p => if p.1 = k then (p.1, v) else p)
  else d ++ [(k, v)]

/-- The dict comprehension `{normalize_skill(s): s for s in skills}`. -/
def normDict (skills : List String) : List (String × String) :=
  skills.foldl (fun d s => dictUpd d (normalize_skill s) s) []

def dictKeys {α : Type} (d : List (String × α)) : List String :=
  d.map (fun p => p.1)

def dictGet {α : Type} (d : List (String × α)) (k : String) : Option α :=
  (d.find? (fun p => decide (p.1 = k))).map (fun p => p.2)

/-- Python truthiness of an optional string (`if best_match:`): `None` and
the empty string are falsy. -/
def pyTruthy : Option String → Bool
  | none => false
  | some s => decide (s ≠ "")

/-- Round half to even to an integer (Python `round` over an exact value). -/
def pyRoundInt (q : ℚ) : ℤ :=
  let f := Rat.floor q
  if q - f < 1/2 then f
  else if 1/2 < q - f then f + 1
  else if f % 2 = 0 then f else f + 1

/-- Python `round(x, 2)` modelled over exact rationals. -/
def round2 (q : ℚ) : ℚ :=
  (pyRoundInt (q * 100) : ℚ) / 100

structure SimpleAcc where
  tw : ℚ
  mw : ℚ
  md : List (String × Bool)

/-- Body of the per-required-skill loop of `calculate_skill_match`
(utils.py 558-579); `ck` is `list(candidate_skills_normalized.keys())`. -/
def simpleStep (ck : List String) (acc : SimpleAcc) (pr : String × String) : SimpleAcc :=
  let w := weightOf pr.1
  if pr.1 ∈ ck then
    ⟨acc.tw + w, acc.mw + w, dictUpd acc.md pr.2 true⟩
  else
    let br := fuzzy_match_skill pr.1 ck 0.85
    if pyTruthy br.1 then ⟨acc.tw + w, acc.mw + w * br.2, dictUpd acc.md pr.2 true⟩
    else ⟨acc.tw + w, acc.mw, dictUpd acc.md pr.2 false⟩

/-- `calculate_skill_match` (utils.py 535-587). -/
def calculate_skill_match (job_skills candidate_skills : List String) :
    ℚ × List (String × Bool) :=
  if job_skills = [] then (0, [])
  else
    let jn := normDict job_skills
    let cn := normDict candidate_skills
    let ck := dictKeys cn
    let res := jn.foldl (simpleStep ck) ⟨0, 0, []⟩
    let pct := if 0 < res.tw then res.mw / res.tw * 100 else 0
    (round2 pct, res.md)

structure FuzzyRec where
  required : String
  found : String
  similarity : ℚ

structure SkillDetail where
  skill : String
  canonical : String
  weight : ℚ
  matched : Bool
  match_type : Option String
  matched_with : Option String
  similarity : ℚ

structure DetailedAcc where
  matched : List String
  missing : List String
  fuzzy : List FuzzyRec
  details : List (String × SkillDetail)
  tw : ℚ
  mw : ℚ

/-- Body of the per-required-skill loop of `calculate_skill_match_detailed`
(utils.py 624-667). -/
def detailedStep (cn : List (String × String)) (acc : DetailedAcc) (pr : String × String) :
    DetailedAcc :=
  let c := pr.1
  let orig := pr.2
  let w := weightOf c
  if c ∈ dictKeys cn then
    let detail : SkillDetail := ⟨orig, c, w, true, some "exact", dictGet cn c, 1⟩
    ⟨acc.matched ++ [orig], acc.missing, acc.fuzzy,
      dictUpd acc.details orig detail, acc.tw + w, acc.mw + w⟩
  else
    let br := fuzzy_match_skill c (dictKeys cn) 0.80
    if pyTruthy br.1 then
      let bm := br.1.getD ""
      let found := (dictGet cn bm).getD bm
      let detail : SkillDetail := ⟨orig, c, w, true, some "fuzzy", some found, br.2⟩
      ⟨acc.matched ++ [orig], acc.missing, acc.fuzzy ++ [⟨orig, found, br.2⟩],
        dictUpd acc.details orig detail, acc.tw + w, acc.mw + w * br.2⟩
    else
      let detail : SkillDetail := ⟨orig, c, w, false, none, none, 0⟩
      ⟨acc.matched, acc.missing ++ [orig], acc.fuzzy,
        dictUpd acc.details orig detail, acc.tw + w, acc.mw⟩

structure DetailedResult where
  match_percentage : ℚ
  weighted_percentage : ℚ
  matched_skills : List String
  missing_skills : List String
  extra_skills : List String
  fuzzy_matches : List FuzzyRec
  skill_details : List (String × SkillDetail)
  total_required : Option Nat
  total_matched : Option Nat
  total_candidate_skills : Option Nat

/-- `calculate_skill_match_detailed` (utils.py 590-696).  The degenerate
empty-`job_skills` return (utils.py 601-610) is a dict that lacks the three
`total_*` keys, hence those fields are `Option Nat` with `none` meaning the
key is absent. -/
def calculate_skill_match_detailed (job_skills candidate_skills : List String) :
    DetailedResult :=
  if job_skills = [] then
    ⟨0, 0, [], [], [], [], [], none, none, none⟩
  else
    let jn := normDict job_skills
    let cn := normDict candidate_skills
    let res := jn.foldl (detailedStep cn) ⟨[], [], [], [], 0, 0⟩
    let extra := cn.foldl (fun ex pr =>
      if pr.1 ∈ dictKeys jn then ex
      else if res.fuzzy.any (fun fm => decide (pyLower fm.found = pyLower pr.2)) then ex
      else ex ++ [pr.2]) []
    let simple := if job_skills = [] then 0
      else ((res.matched.length : ℚ) / (job_skills.length : ℚ)) * 100
    let weighted := if 0 < res.tw then res.mw / res.tw * 100 else 0
    ⟨round2 simple, round2 weighted, res.matched, res.missing, extra, res.fuzzy,
      res.details, some job_skills.length, some res.matched.length,
      some candidate_skills.length⟩

/-- Word-character test at position `i` of a list (out of range counts as
non-word). -/
def wordCharAt (l : List Char) (i : Nat) : Bool :=
  match l.drop i with
  | c :: _ => wordChar c
  | [] => false

/-- The regex word boundary `\b` at position `i`: exactly one of the two
adjacent positions holds a word character. -/
def boundaryAt (l : List Char) (i : Nat) : Bool :=
  (if i = 0 then false else wordCharAt l (i - 1)) != wordCharAt l i

/-- Match of the literal `needle` at position `i` of `hay` with `\b` anchors
on both sides: the regex `r'\b' + re.escape(needle) + r'\b'` at `i`. -/
def wwMatchAt (needle hay : List Char) (i : Nat) : Bool :=
  decide (pySlice hay i needle.length = needle) && boundaryAt hay i &&
    boundaryAt hay (i + needle.length)

/-- `re.search(r'\b' + re.escape(needle) + r'\b', hay) is not None`. -/
def wwSearch (needle hay : List Char) : Bool :=
  (List.range (hay.length + 1)).any (fun i => wwMatchAt needle hay i)

/-- Propositional form of `wwSearch`: some `\b`-anchored occurrence exists. -/
def WordOccurs (needle hay : List Char) : Prop :=
  ∃ i ∈ List.range (hay.length + 1), wwMatchAt needle hay i = true

instance (needle hay : List Char) : Decidable (WordOccurs needle hay) :=
  List.decidableBEx _ _

/-- `set.add`: deduplicating insert (iteration order of the Python set is
irrelevant because the extractor sorts before returning). -/
def setAdd (s : List String) (x : String) : List String :=
  if x ∈ s then s else s ++ [x]

/-- A SpaCy entity: label and surface text.  The NLP model itself is an
external collaborator, so the extractor receives its output as an
argument. -/
structure Ent where
  label : String
  etext : String

/-- Code-point lexicographic order on character lists (Python `str <`). -/
def lexLt : List Char → List Char → Bool
  | [], [] => false
  | [], _ :: _ => true
  | _ :: _, [] => false
  | a :: as, b :: bs => if a < b then true else if b < a then false else lexLt as bs

/-- Insert into a list sorted by the Python key `str.lower`. -/
def insByLower (x : String) : List String → List String
  | [] => [x]
  | y :: ys =>
    if lexLt (pyLower x).data (pyLower y).data then x :: y :: ys
    else y :: insByLower x ys

/-- `sorted(strings, key=str.lower)`. -/
def sortByLower : List String → List String
  | [] => []
  | x :: xs => insByLower x (sortByLower xs)

/-- `extract_skills` (utils.py 361-412).  `ents` is the entity list the
external SpaCy model proposed for `text[:100000]`. -/
def extract_skills (text : String) (ents : List Ent) : List String :=
  if text = "" then []
  else
    let tl := pyLower text
    let s1 := TECH_SKILLS.foldl (fun acc skill =>
      let sl := pyLower skill
      if wwSearch sl.data tl.data then setAdd acc (synGet sl) else acc) []
    let s2 := SKILL_SYNONYMS.foldl (fun acc p =>
      if wwSearch (pyLower p.1).data tl.data then setAdd acc p.2 else acc) s1
    let s3 := ents.foldl (fun acc e =>
      if e.label ∈ (["ORG", "PRODUCT", "WORK_OF_ART"] : List String) then
        let el := pyLowerStrip e.etext
        if 2 ≤ el.length ∧ el.length ≤ 30 then
          if el ∈ TECH_SKILLS_SET then setAdd acc (synGet el) else acc
        else acc
      else acc) s2
    sortByLower s3

/-- Character allow-list of `clean_text`: the regex
`[^\w\s\.\,\;\:\!\?\-\+\#\@\(\)\[\]\/]` strips everything else. -/
def allowedChar (c : Char) : Bool :=
  wordChar c || pySpace c ||
    ['.', ',', ';', ':', '!', '?', '-', '+', '#', '@', '(', ')', '[', ']', '/'].contains c

/-- Model of `re.sub(r'\s+', ' ', text)`: each maximal whitespace run becomes
a single space (`prevWs` records whether the previous character was
whitespace). -/
def collapseWs : List Char → Bool → List Char
  | [], _ => []
  | c :: rest, prevWs =>
    if pySpace c then
      if prevWs then collapseWs rest true else ' ' :: collapseWs rest true
    else c :: collapseWs rest false

/-- `clean_text` (utils.py 335-358): collapse whitespace runs, strip, then
remove characters outside the allow-list — in that order. -/
def clean_text (text : String) : String :=
  if text = "" then ""
  else ⟨(pyStripL (collapseWs text.data false)).filter allowedChar⟩

structure Highlight where
  start : Nat
  stop : Nat
  htext : String
  htype : String
  hskill : String

/-- First `\b`-anchored occurrence of `needle` in `hay` at index ≥ `pos`. -/
def firstWWFrom (needle hay : List Char) (pos : Nat) : Option Nat :=
  (List.range (hay.length + 1)).find? (fun i => decide (pos ≤ i) && wwMatchAt needle hay i)

/-- Start indices yielded by `re.finditer` for the anchored literal pattern:
leftmost matches, continuing right after each one (a zero-width match
advances by one).  `fuel` bounds the number of matches; the top-level call
supplies `hay.length + 1`, which suffices because positions strictly
increase. -/
def finditerGo (needle hay : List Char) : Nat → Nat → List Nat
  | 0, _ => []
  | fuel + 1, pos =>
    match firstWWFrom needle hay pos with
    | none => []
    | some i => i :: finditerGo needle hay fuel (i + max needle.length 1)

def finditer (needle hay : List Char) : List Nat :=
  finditerGo needle hay (hay.length + 1) 0

/-- Spans emitted for one skill (views.py 521-545): one `Highlight` per
`finditer` hit of the lower-cased skill in the lower-cased CV text. -/
def spansFor (cvText : String) (tag skill : String) : List Highlight :=
  let sl := pyLower skill
  (finditer sl.data (pyLower cvText).data).map (fun i =>
    ⟨i, i + sl.data.length, ⟨pySlice cvText.data i sl.data.length⟩, tag, skill⟩)

/-- The unfiltered highlight list of `check_score` (views.py 517-545):
`skill_match` spans for all matched skills first, then `skill_found` spans
for the CV skills that are not already matched. -/
def rawHighlights (cvText : String) (matched cvSkills : List String) : List Highlight :=
  let hs1 := matched.foldl (fun acc s => acc ++ spansFor cvText "skill_match" s) []
  cvSkills.foldl (fun acc s =>
    if pyLower s ∈ matched.map pyLower then acc
    else acc ++ spansFor cvText "skill_found" s) hs1

/-- Stable insertion into a list sorted by `start`: the new element (which
came later in the original list) goes after all existing elements with the
same start. -/
def insByStart (x : Highlight) : List Highlight → List Highlight
  | [] => [x]
  | y :: ys => if x.start ≤ y.start then x :: y :: ys else y :: insByStart x ys

/-- `highlights.sort(key=lambda x: x['start'])`: Python's sort is stable and
a stable sort by a key is unique, so stable insertion sort models it. -/
def sortByStart : List Highlight → List Highlight
  | [] => []
  | x :: xs => insByStart x (sortByStart xs)

/-- The overlap sweep of `check_score` (views.py 550-556): keep a span only
if its start is at least the end of the last kept span; `last_end` starts
at -1. -/
def sweepGo (lastEnd : Int) : List Highlight → List Highlight
  | [] => []
  | h :: rest =>
    if lastEnd ≤ (h.start : Int) then h :: sweepGo (h.stop : Int) rest
    else sweepGo lastEnd rest

/-- The final `filtered_highlights` of `check_score` (views.py 547-556). -/
def buildHighlights (cvText : String) (matched cvSkills : List String) : List Highlight :=
  sweepGo (-1) (sortByStart (rawHighlights cvText matched cvSkills))

/-- Short-circuit test of the fuzzy matcher, following the spec: the query
(already lower-cased) equals the lower-cased candidate, or their canonical
forms agree. -/
def scEq (skill_lower candidate : String) : Prop :=
  skill_lower = pyLower candidate ∨
    normalize_skill skill_lower = normalize_skill (pyLower candidate)

instance (q c : String) : Decidable (scEq q c) := by
  unfold scEq; infer_instance

/-- Maximum of a list of rationals, 0 for the empty list. -/
def maxQ (l : List ℚ) : ℚ :=
  l.foldr max 0

/-- Specification of `fuzzy_match_skill`, written from the spec's words: the
first exact or synonym-equivalent candidate wins with ratio 1.0; otherwise
the first candidate attaining the maximal similarity ratio wins, provided
that maximum is positive and meets the threshold (equality accepted);
otherwise the result is no match with ratio 0. -/
def fuzzyBestSpec (skill : String) (skill_list : List String) (threshold : ℚ) :
    Option String × ℚ :=
  let ql := pyLower skill
  match skill_list.find? (fun c => decide (scEq ql c)) with
  | some c => (some c, 1)
  | none =>
    let R := fun c => seqRatio ql (pyLower c)
    let M := maxQ (skill_list.map R)
    if threshold ≤ M ∧ 0 < M then
      match skill_list.find? (fun c => decide (R c = M)) with
      | some c => (some c, M)
      | none => (none, 0)
    else (none, 0)

/-- Weight credited for one distinct canonical required skill, as the spec
states it: full weight on a canonical hit among the possessed canonical
forms, weight × ratio when the fuzzy matcher returns a hit, nothing
otherwise. -/
def specCredit (threshold : ℚ) (ck : List String) (c : String) : ℚ :=
  if c ∈ ck then weightOf c
  else
    match fuzzy_match_skill c ck threshold with
    | (some _, r) => weightOf c * r
    | (none, _) => 0

/-- Per-skill credit exactly as the code computes it (Python truthiness of
the returned best match). -/
def codeCredit (threshold : ℚ) (ck : List String) (c : String) : ℚ :=
  if c ∈ ck then weightOf c
  else
    let br := fuzzy_match_skill c ck threshold
    if pyTruthy br.1 then weightOf c * br.2 else 0

def sumWeights (cs : List String) : ℚ :=
  (cs.map weightOf).sum

def sumCredits (threshold : ℚ) (ck : List String) (cs : List String) : ℚ :=
  (cs.map (specCredit threshold ck)).sum

/-- Distinct canonical forms of a skill list, in first-occurrence order
(the keys of the normalization dict). -/
def canonKeys (skills : List String) : List String :=
  dictKeys (normDict skills)

/-- No two adjacent whitespace characters. -/
@[reducible] def NoWsRun (l : List Char) : Prop :=
  List.Chain' (fun a b => pySpace a = false ∨ pySpace b = false) l

/-- Every whitespace character is a plain space. -/
@[reducible] def WsIsSpace (l : List Char) : Prop :=
  ∀ c ∈ l, pySpace c = true → c = ' '

/-- Neither end of the list is whitespace. -/
def NoEdgeWs (l : List Char) : Prop :=
  (∀ c, l.head? = some c → pySpace c = false) ∧
    (∀ c, l.getLast? = some c → pySpace c = false)

/-- Every string the extractor can ever emit: canonical forms of catalog
entries and synonym-table values. -/
def canonicalForms : List String :=
  TECH_SKILLS.map (fun s => synGet (pyLower s)) ++ SKILL_SYNONYMS.map (fun p => p.2)

/-- Continuation spec of the fuzzy loop from a live best `(c0, r0)`: a later
candidate wins only with a ratio strictly above `r0` (the first such
candidate attaining the maximum), except that a short-circuit
(exact/synonym-equal) candidate still wins immediately with ratio 1. -/
def fuzzySpecCont (ql : String) (l : List String) (c0 : String) (r0 : ℚ) :
    Option String × ℚ :=
  match l.find? (fun c => decide (scEq ql c)) with
  | some c => (some c, 1)
  | none =>
    let R := fun c => seqRatio ql (pyLower c)
    let M := maxQ (l.map R)
    if r0 < M then
      match l.find? (fun c => decide (R c = M)) with
      | some c => (some c, M)
      | none => (some c0, r0)
    else (some c0, r0)

theorem toNat_ofNat_lt (n : Nat) (h : n < 55296) : (Char.ofNat n).toNat = n := by
  rw [Char.ofNat, dif_pos (Or.inl h)]
  rfl

theorem pyToLower_cases (c : Char) :
    (65 ≤ c.toNat ∧ c.toNat ≤ 90 ∧ (pyToLower c).toNat = c.toNat + 32) ∨
      ((65 ≤ c.toNat ∧ c.toNat ≤ 90 → False) ∧ pyToLower c = c) := by
  by_cases h : 65 ≤ c.toNat ∧ c.toNat ≤ 90
  · refine Or.inl ⟨h.1, h.2, ?_⟩
    rw [pyToLower, if_pos h]
    exact toNat_ofNat_lt _ (by omega)
  · exact Or.inr ⟨h, by rw [pyToLower, if_neg h]⟩

theorem pyToLower_idem (c : Char) : pyToLower (pyToLower c) = pyToLower c := by
  rcases pyToLower_cases c with ⟨h1, h2, h3⟩ | ⟨h, h2⟩
  · rw [pyToLower, if_neg]
    omega
  · rw [h2, h2]

theorem pySpace_toNat (c : Char) (h : pySpace c = true) :
    c.toNat = 32 ∨ c.toNat = 9 ∨ c.toNat = 10 ∨ c.toNat = 13 ∨
      c.toNat = 11 ∨ c.toNat = 12 := by
  simp only [pySpace, Bool.or_eq_true, beq_iff_eq] at h
  rcases h with ((((h|h)|h)|h)|h)|h <;> subst h <;> simp [Char.toNat]

theorem pySpace_pyToLower (c : Char) : pySpace (pyToLower c) = pySpace c := by
  rcases pyToLower_cases c with ⟨h1, h2, h3⟩ | ⟨h, h2⟩
  · have hc : pySpace c = false := by
      cases hsp : pySpace c with
      | false => rfl
      | true => exact absurd (pySpace_toNat c hsp) (by omega)
    have hd : pySpace (pyToLower c) = false := by
      cases hsp : pySpace (pyToLower c) with
      | false => rfl
      | true => exact absurd (pySpace_toNat _ hsp) (by omega)
    rw [hc, hd]
  · rw [h2]

theorem map_pyToLower_idem (l : List Char) :
    (l.map pyToLower).map pyToLower = l.map pyToLower := by
  induction l with
  | nil => rfl
  | cons c rest ih => simp only [List.map_cons, pyToLower_idem, ih]

theorem pyLower_idem (s : String) : pyLower (pyLower s) = pyLower s := by
  show String.mk ((s.data.map pyToLower).map pyToLower) = String.mk (s.data.map pyToLower)
  rw [map_pyToLower_idem]

theorem dropWhile_idem (p : Char → Bool) (l : List Char) :
    (l.dropWhile p).dropWhile p = l.dropWhile p := by
  induction l with
  | nil => rfl
  | cons c rest ih =>
    by_cases h : p c = true
    · rw [List.dropWhile_cons_of_pos h, ih]
    · rw [List.dropWhile_cons_of_neg (by simpa using h),
        List.dropWhile_cons_of_neg (by simpa using h)]

theorem dropWhile_head_false (p : Char → Bool) (l : List Char) (c : Char)
    (h : (l.dropWhile p).head? = some c) : p c = false := by
  induction l with
  | nil => simp at h
  | cons a rest ih =>
    by_cases ha : p a = true
    · rw [List.dropWhile_cons_of_pos ha] at h
      exact ih h
    · rw [List.dropWhile_cons_of_neg (by simpa using ha)] at h
      simp only [List.head?_cons, Option.some_inj] at h
      subst h
      simpa using ha

theorem dropWhile_eq_self_of_head (p : Char → Bool) (l : List Char)
    (h : ∀ c, l.head? = some c → p c = false) : l.dropWhile p = l := by
  cases l with
  | nil => rfl
  | cons a rest =>
    exact List.dropWhile_cons_of_neg (by simpa using h a rfl)

theorem getLast?_of_suffix {l₁ l₂ : List Char} (h : l₁ <:+ l₂) (hne : l₁ ≠ []) :
    l₁.getLast? = l₂.getLast? := by
  obtain ⟨t, rfl⟩ := h
  rw [List.getLast?_append_of_ne_nil _ hne]

theorem pyStripL_idem (l : List Char) : pyStripL (pyStripL l) = pyStripL l := by
  set A := l.dropWhile pySpace with hA
  set B := A.reverse.dropWhile pySpace with hB
  show pyStripL B.reverse = B.reverse
  have h1 : B.reverse.dropWhile pySpace = B.reverse := by
    apply dropWhile_eq_self_of_head
    intro c hc
    rw [List.head?_reverse] at hc
    rcases hBe : B with _ | ⟨b, bt⟩
    · rw [hBe] at hc; simp at hc
    · have hsuf : B <:+ A.reverse := by rw [hB]; exact List.dropWhile_suffix _
      have : B.getLast? = A.reverse.getLast? :=
        getLast?_of_suffix hsuf (by rw [hBe]; exact List.cons_ne_nil _ _)
      rw [this, List.getLast?_reverse] at hc
      exact dropWhile_head_false pySpace l c hc
  have h2 : B.reverse.reverse.dropWhile pySpace = B := by
    rw [List.reverse_reverse]
    rw [hB]
    exact dropWhile_idem _ _
  rw [pyStripL, h1, h2]

theorem dropWhile_pyLower (l : List Char) :
    (l.map pyToLower).dropWhile pySpace = (l.dropWhile pySpace).map pyToLower := by
  induction l with
  | nil => rfl
  | cons c rest ih =>
    by_cases h : pySpace c = true
    · have h2 : pySpace (pyToLower c) = true := by rw [pySpace_pyToLower]; exact h
      rw [List.map_cons, List.dropWhile_cons_of_pos h2, List.dropWhile_cons_of_pos h, ih]
    · have h2 : pySpace (pyToLower c) = false := by
        rw [pySpace_pyToLower]; simpa using h
      rw [List.map_cons, List.dropWhile_cons_of_neg (by simpa using h2),
        List.dropWhile_cons_of_neg (by simpa using h), List.map_cons]

theorem pyStripL_pyLower (l : List Char) :
    pyStripL (l.map pyToLower) = (pyStripL l).map pyToLower := by
  rw [pyStripL, pyStripL, dropWhile_pyLower, ← List.map_reverse, dropWhile_pyLower,
    ← List.map_reverse]

theorem pyLowerStrip_idem (s : String) : pyLowerStrip (pyLowerStrip s) = pyLowerStrip s := by
  show String.mk (pyStripL ((pyStripL (s.data.map pyToLower)).map pyToLower))
      = String.mk (pyStripL (s.data.map pyToLower))
  rw [← pyStripL_pyLower, map_pyToLower_idem, pyStripL_idem]

theorem syn_values_fixed :
    SKILL_SYNONYMS.all
      (fun p => (pyLowerStrip p.2 == p.2) && (synLookup p.2).isNone) = true := by
  decide

theorem mem_syn_value_fixed {p : String × String} (hp : p ∈ SKILL_SYNONYMS) :
    pyLowerStrip p.2 = p.2 ∧ synLookup p.2 = none := by
  have h := List.all_eq_true.mp syn_values_fixed p hp
  simp only [Bool.and_eq_true, beq_iff_eq, Option.isNone_iff_eq_none] at h
  exact h

theorem synLookup_some {k v : String} (h : synLookup k = some v) :
    ∃ p ∈ SKILL_SYNONYMS, p.1 = k ∧ p.2 = v := by
  unfold synLookup at h
  cases hf : SKILL_SYNONYMS.find? (fun p => decide (p.1 = k)) with
  | none => rw [hf] at h; simp at h
  | some p =>
    rw [hf] at h
    simp only [Option.map_some', Option.some_inj] at h
    refine ⟨p, List.mem_of_find?_eq_some hf, ?_, h⟩
    have := List.find?_some hf
    simpa using this

theorem normalize_skill_of_lookup_none {s : String}
    (h : synLookup (pyLowerStrip s) = none) : normalize_skill s = pyLowerStrip s := by
  rw [normalize_skill, synGet, h]

theorem normalize_skill_of_lookup_some {s v : String}
    (h : synLookup (pyLowerStrip s) = some v) : normalize_skill s = v := by
  rw [normalize_skill, synGet, h]

theorem normalize_skill_idem_aux (s : String) :
    normalize_skill (normalize_skill s) = normalize_skill s := by
  cases h : synLookup (pyLowerStrip s) with
  | some v =>
    obtain ⟨p, hp, hk, hv⟩ := synLookup_some h
    have hfix := mem_syn_value_fixed hp
    rw [hv] at hfix
    rw [normalize_skill_of_lookup_some h, normalize_skill, synGet, hfix.1, hfix.2]
  | none =>
    rw [normalize_skill_of_lookup_none h, normalize_skill, synGet, pyLowerStrip_idem, h]

theorem suffix_eq_of_length {l₁ l₂ : List Char} (h : l₁ <:+ l₂)
    (hl : l₁.length = l₂.length) : l₁ = l₂ := by
  obtain ⟨t, rfl⟩ := h
  have : t = [] := by
    rw [List.length_append] at hl
    exact List.length_eq_zero.mp (by omega)
  rw [this, List.nil_append]

theorem dropWhile_eq_self_of_length {p : Char → Bool} {l : List Char}
    (h : (l.dropWhile p).length = l.length) : l.dropWhile p = l :=
  suffix_eq_of_length (List.dropWhile_suffix p) h

theorem dropWhile_length_le (p : Char → Bool) (l : List Char) :
    (l.dropWhile p).length ≤ l.length :=
  (List.dropWhile_suffix p).sublist.length_le

theorem pyStripL_length_le (l : List Char) : (pyStripL l).length ≤ l.length := by
  rw [pyStripL]
  calc ((l.dropWhile pySpace).reverse.dropWhile pySpace).reverse.length
      = ((l.dropWhile pySpace).reverse.dropWhile pySpace).length := List.length_reverse _
    _ ≤ (l.dropWhile pySpace).reverse.length := dropWhile_length_le _ _
    _ = (l.dropWhile pySpace).length := List.length_reverse _
    _ ≤ l.length := dropWhile_length_le _ _

theorem pyStripL_eq_self_of_length {l : List Char}
    (h : (pyStripL l).length = l.length) : pyStripL l = l := by
  have h1 : (l.dropWhile pySpace).length = l.length := by
    have hle1 := dropWhile_length_le pySpace l
    have : (pyStripL l).length ≤ (l.dropWhile pySpace).length := by
      rw [pyStripL, List.length_reverse]
      calc ((l.dropWhile pySpace).reverse.dropWhile pySpace).length
          ≤ (l.dropWhile pySpace).reverse.length := dropWhile_length_le _ _
        _ = (l.dropWhile pySpace).length := List.length_reverse _
    omega
  have h2 : l.dropWhile pySpace = l := dropWhile_eq_self_of_length h1
  have h3 : (l.reverse.dropWhile pySpace).length = l.reverse.length := by
    have : pyStripL l = (l.reverse.dropWhile pySpace).reverse := by rw [pyStripL, h2]
    rw [this, List.length_reverse] at h
    rw [h, List.length_reverse]
  have h4 : l.reverse.dropWhile pySpace = l.reverse := dropWhile_eq_self_of_length h3
  rw [pyStripL, h2, h4, List.reverse_reverse]

theorem pyLower_fixed_of_lowerStrip_fixed {v : String}
    (h : pyLowerStrip v = v) : pyLower v = v := by
  have hd : pyStripL (v.data.map pyToLower) = v.data := congrArg String.data h
  have hlen : (v.data.map pyToLower).length = v.data.length := List.length_map _ _
  have : pyStripL (v.data.map pyToLower) = v.data.map pyToLower := by
    apply pyStripL_eq_self_of_length
    rw [hd, hlen]
  show String.mk (v.data.map pyToLower) = v
  rw [← this, hd]

theorem pyLower_normalize_fixed (s : String) :
    pyLower (normalize_skill s) = normalize_skill s := by
  cases h : synLookup (pyLowerStrip s) with
  | some v =>
    obtain ⟨p, hp, hk, hv⟩ := synLookup_some h
    rw [normalize_skill_of_lookup_some h]
    exact pyLower_fixed_of_lowerStrip_fixed (hv ▸ (mem_syn_value_fixed hp).1)
  | none =>
    rw [normalize_skill_of_lookup_none h]
    show String.mk ((pyStripL (s.data.map pyToLower)).map pyToLower)
        = String.mk (pyStripL (s.data.map pyToLower))
    rw [← pyStripL_pyLower, map_pyToLower_idem]

/-- C3: skill canonicalization is idempotent for every string (in particular
every taxonomy-known one), and the synonym table is flat: no canonical value
is itself a synonym key. -/
theorem normalize_skill_idem :
    (∀ s, normalize_skill (normalize_skill s) = normalize_skill s) ∧
      (∀ p ∈ SKILL_SYNONYMS, synLookup p.2 = none) :=
  ⟨normalize_skill_idem_aux, fun _ hp => (mem_syn_value_fixed hp).2⟩

/-- C4 counterexample: "Rust" is not a synonym key (not even
case-insensitively), yet `normalize_skill` does not return it unchanged —
it lower-cases it. -/
theorem normalize_unknown_changed :
    synLookup "Rust" = none ∧ synLookup "rust" = none ∧
      normalize_skill "Rust" ≠ "Rust" := by
  refine ⟨by decide, by decide, by decide⟩

/-- C4 (amended): for a token whose trimmed lower-cased form is not a
synonym key, `normalize_skill` returns that trimmed lower-cased form — in
particular an already-trimmed, lower-case unknown token passes through
unchanged; for a token whose trimmed lower-cased form is a key, it returns
that key's canonical form. -/
theorem normalize_unknown_passthrough :
    (∀ s, synLookup (pyLowerStrip s) = none → normalize_skill s = pyLowerStrip s) ∧
      (∀ s, pyLowerStrip s = s → synLookup s = none → normalize_skill s = s) ∧
      (∀ s v, synLookup (pyLowerStrip s) = some v → normalize_skill s = v) := by
  refine ⟨fun s h => normalize_skill_of_lookup_none h, ?_, fun s v h => normalize_skill_of_lookup_some h⟩
  intro s hfix hnone
  rw [normalize_skill, synGet, hfix, hnone]

/-- Witness for the amended C4 theorem at the concrete tokens "rust"
(unknown, already lower-case: unchanged) and "K8s" (synonym key:
canonicalized). -/
theorem normalize_unknown_passthrough_witness :
    (pyLowerStrip "rust" = "rust" ∧ synLookup "rust" = none ∧
        normalize_skill "rust" = "rust") ∧
      (synLookup (pyLowerStrip "K8s") = some "kubernetes" ∧
        normalize_skill "K8s" = "kubernetes") :=
  ⟨⟨by decide, by decide,
      normalize_unknown_passthrough.2.1 "rust" (by decide) (by decide)⟩,
    ⟨by decide, normalize_unknown_passthrough.2.2 "K8s" "kubernetes" (by decide)⟩⟩

/-- C8 counterexample: the degenerate detailed breakdown for an empty
required list omits the three count keys entirely (modelled as `none`),
while the normal path always carries them (`some _`). -/
theorem detailed_empty_counts_absent :
    (calculate_skill_match_detailed [] ["python"]).total_required = none ∧
      (calculate_skill_match_detailed ["python"] []).total_required = some 1 := by
  exact ⟨rfl, by decide⟩

/-- C8 (amended): for every possessed list, an empty required list is a
defined degenerate case: the simple scorer returns `(0.0, {})` and the
detailed scorer returns the breakdown with all lists empty, both
percentages 0.0, and no `total_*` keys. -/
theorem score_empty_required :
    (∀ cand, calculate_skill_match [] cand = (0, [])) ∧
      (∀ cand, calculate_skill_match_detailed [] cand =
        ⟨0, 0, [], [], [], [], [], none, none, none⟩) :=
  ⟨fun _ => rfl, fun _ => rfl⟩

theorem ratFloor_eq_intFloor (a : ℚ) : Rat.floor a = ⌊a⌋ := by
  rw [Rat.floor_def', Rat.floor_def]

theorem round2_int (n : ℤ) : round2 ((n : ℚ)) = (n : ℚ) := by
  unfold round2 pyRoundInt
  have hcast : ((n : ℚ) * 100) = ((n * 100 : ℤ) : ℚ) := by push_cast; ring
  have hf : Rat.floor ((n : ℚ) * 100) = n * 100 := by
    rw [hcast, ratFloor_eq_intFloor]
    exact Int.floor_intCast _
  simp only [hf]
  rw [if_pos]
  · push_cast
    field_simp
  · rw [hcast]
    push_cast
    norm_num

theorem weightOf_nodejs : weightOf "nodejs" = 1 := by
  simp [weightOf, SKILL_WEIGHTS, List.find?]
  norm_num

/-- C10: on the duplicate-canonical required list ["node", "nodejs"] with a
candidate possessing that skill, the simple percentage divides the single
matched entry by the raw required length 2 — giving 50.00 — while the
weighted percentage is 100.00; every distinct required canonical is matched
exactly, yet the two percentages diverge. -/
theorem detailed_duplicate_canonical_divergence :
    (calculate_skill_match_detailed ["node", "nodejs"] ["nodejs"]).match_percentage = 50 ∧
      (calculate_skill_match_detailed ["node", "nodejs"] ["nodejs"]).weighted_percentage = 100 ∧
      (calculate_skill_match_detailed ["node", "nodejs"] ["nodejs"]).matched_skills = ["nodejs"] ∧
      (calculate_skill_match_detailed ["node", "nodejs"] ["nodejs"]).total_required = some 2 := by
  have h1 : normDict ["node", "nodejs"] = [("nodejs", "nodejs")] := by decide
  have h2 : normDict ["nodejs"] = [("nodejs", "nodejs")] := by decide
  have hne : ¬(["node", "nodejs"] : List String) = [] := by decide
  refine ⟨?_, ?_, by decide, by decide⟩
  · simp only [calculate_skill_match_detailed, h1, h2]
    norm_num [detailedStep, dictKeys, dictGet, dictUpd, weightOf_nodejs]
    rw [if_neg hne]
    show round2 (if (["node", "nodejs"] : List String) = [] then 0 else 50) = 50
    rw [if_neg hne, show (50 : ℚ) = ((50 : ℤ) : ℚ) by norm_num, round2_int]
  · simp only [calculate_skill_match_detailed, h1, h2]
    norm_num [detailedStep, dictKeys, dictGet, dictUpd, weightOf_nodejs]
    rw [if_neg hne]
    show round2 100 = 100
    rw [show (100 : ℚ) = ((100 : ℤ) : ℚ) by norm_num, round2_int]

/-- Witness for C3 at the concrete token "K8s" and the concrete synonym pair
("js", "javascript"). -/
theorem normalize_skill_idem_witness :
    normalize_skill (normalize_skill "K8s") = normalize_skill "K8s" ∧
      synLookup "javascript" = none :=
  ⟨normalize_skill_idem.1 "K8s",
    normalize_skill_idem.2 ("js", "javascript") (by decide)⟩

theorem seqRatio_nonneg (a b : String) : 0 ≤ seqRatio a b := by
  rw [seqRatio]
  split
  · norm_num
  · positivity

theorem maxQ_nonneg (l : List ℚ) : 0 ≤ maxQ l := by
  induction l with
  | nil => simp [maxQ]
  | cons x xs ih => exact le_trans ih (le_max_right x (maxQ xs))

theorem maxQ_cons (x : ℚ) (l : List ℚ) : maxQ (x :: l) = max x (maxQ l) := rfl

theorem maxQ_zero_or_mem (l : List ℚ) : maxQ l = 0 ∨ maxQ l ∈ l := by
  induction l with
  | nil => exact Or.inl rfl
  | cons x xs ih =>
    rw [maxQ_cons]
    rcases max_choice x (maxQ xs) with h | h
    · rw [h]
      exact Or.inr (List.mem_cons_self x xs)
    · rw [h]
      rcases ih with h0 | hm
      · exact Or.inl h0
      · exact Or.inr (List.mem_cons_of_mem x hm)

theorem find?_max_of_pos (ql : String) (l : List String)
    (h : 0 < maxQ (l.map (fun c => seqRatio ql (pyLower c)))) :
    ∃ d, l.find? (fun c => decide (seqRatio ql (pyLower c)
        = maxQ (l.map (fun c => seqRatio ql (pyLower c))))) = some d := by
  rcases maxQ_zero_or_mem (l.map (fun c => seqRatio ql (pyLower c))) with h0 | hm
  · rw [h0] at h
    exact absurd h (lt_irrefl 0)
  · obtain ⟨d, hd, hde⟩ := List.mem_map.mp hm
    have : (l.find? (fun c => decide (seqRatio ql (pyLower c)
        = maxQ (l.map (fun c => seqRatio ql (pyLower c)))))).isSome := by
      rw [List.find?_isSome]
      exact ⟨d, hd, by simp [hde]⟩
    exact Option.isSome_iff_exists.mp this

theorem fuzzyLoop_cons_no_sc (ql : String) (t : ℚ) (c : String) (l : List String)
    (acc : Option String × ℚ) (hsc : ¬ scEq ql c) :
    fuzzyLoop ql t (c :: l) acc =
      (if acc.2 < seqRatio ql (pyLower c) ∧ t ≤ seqRatio ql (pyLower c) then
        fuzzyLoop ql t l (some c, seqRatio ql (pyLower c))
      else fuzzyLoop ql t l acc) := by
  rw [scEq, not_or] at hsc
  simp only [fuzzyLoop]
  rw [if_neg hsc.1, if_neg hsc.2]

theorem fuzzyLoop_cons_sc (ql : String) (t : ℚ) (c : String) (l : List String)
    (acc : Option String × ℚ) (hsc : scEq ql c) :
    fuzzyLoop ql t (c :: l) acc = (some c, 1) := by
  rcases hsc with h1 | h2
  · simp only [fuzzyLoop]
    rw [if_pos h1]
  · by_cases h1 : ql = pyLower c
    · simp only [fuzzyLoop]
      rw [if_pos h1]
    · simp only [fuzzyLoop]
      rw [if_neg h1, if_pos h2]

theorem fuzzyLoop_some_spec (ql : String) (t : ℚ) (l : List String) :
    ∀ (c0 : String) (r0 : ℚ), t ≤ r0 → 0 < r0 →
      fuzzyLoop ql t l (some c0, r0) = fuzzySpecCont ql l c0 r0 := by
  induction l with
  | nil =>
    intro c0 r0 ht hr
    simp only [fuzzyLoop, fuzzySpecCont, List.find?_nil, List.map_nil]
    rw [if_neg]
    show ¬ r0 < maxQ []
    have : maxQ ([] : List ℚ) = 0 := rfl
    rw [this]
    exact not_lt.mpr hr.le
  | cons c l ih =>
    intro c0 r0 ht hr
    by_cases hsc : scEq ql c
    · rw [fuzzyLoop_cons_sc ql t c l _ hsc]
      rw [fuzzySpecCont, List.find?_cons_of_pos _ (by simpa using hsc)]
    · rw [fuzzyLoop_cons_no_sc ql t c l _ hsc]
      have hfind : (c :: l).find? (fun x => decide (scEq ql x))
          = l.find? (fun x => decide (scEq ql x)) :=
        List.find?_cons_of_neg _ (by simpa using hsc)
      set r := seqRatio ql (pyLower c) with hrdef
      set Ml := maxQ (l.map (fun x => seqRatio ql (pyLower x))) with hMl
      have hMcons : maxQ ((c :: l).map (fun x => seqRatio ql (pyLower x))) = max r Ml := by
        rw [List.map_cons, maxQ_cons]
      by_cases hup : r0 < r
      · have htr : t ≤ r := le_trans ht hup.le
        rw [if_pos ⟨hup, htr⟩, ih c r htr (lt_trans hr hup)]
        rw [fuzzySpecCont, fuzzySpecCont, hfind]
        cases hf : l.find? (fun x => decide (scEq ql x)) with
        | some d => rfl
        | none =>
          simp only [hMcons]
          by_cases hrm : r < Ml
          · rw [if_pos hrm, if_pos (lt_of_lt_of_le hup (le_max_of_le_right hrm.le))]
            rw [max_eq_right hrm.le]
            rw [List.find?_cons_of_neg _ (by simp [hrdef]; exact ne_of_lt hrm)]
            obtain ⟨d, hd⟩ := find?_max_of_pos ql l (lt_trans (lt_trans hr hup) hrm)
            rw [hd]
          · rw [if_neg hrm, max_eq_left (not_lt.mp hrm)]
            rw [if_pos hup]
            rw [List.find?_cons_of_pos _ (by simp)]
      · have hcond : ¬ (r0 < r ∧ t ≤ r) := fun h => hup h.1
        rw [if_neg hcond, ih c0 r0 ht hr]
        rw [fuzzySpecCont, fuzzySpecCont, hfind]
        cases hf : l.find? (fun x => decide (scEq ql x)) with
        | some d => rfl
        | none =>
          simp only [hMcons]
          have hrle : r ≤ r0 := not_lt.mp hup
          by_cases hm : r0 < Ml
          · rw [max_eq_right (le_trans hrle hm.le)]
            rw [if_pos hm, if_pos hm]
            rw [List.find?_cons_of_neg _
              (by simp [hrdef]; exact ne_of_lt (lt_of_le_of_lt hrle hm))]
          · have : ¬ r0 < max r Ml := by
              rw [not_lt, max_le_iff]
              exact ⟨hrle, not_lt.mp hm⟩
            rw [if_neg hm, if_neg this]

theorem fuzzyLoop_none_spec (ql : String) (t : ℚ) (l : List String) :
    fuzzyLoop ql t l (none, 0) =
      (match l.find? (fun c => decide (scEq ql c)) with
      | some c => (some c, 1)
      | none =>
        if t ≤ maxQ (l.map (fun c => seqRatio ql (pyLower c)))
            ∧ 0 < maxQ (l.map (fun c => seqRatio ql (pyLower c))) then
          match l.find? (fun c => decide (seqRatio ql (pyLower c)
              = maxQ (l.map (fun c => seqRatio ql (pyLower c))))) with
          | some c => (some c, maxQ (l.map (fun c => seqRatio ql (pyLower c))))
          | none => (none, 0)
        else (none, 0)) := by
  induction l with
  | nil =>
    simp only [fuzzyLoop, List.find?_nil, List.map_nil]
    rw [if_neg]
    intro h
    exact absurd h.2 (lt_irrefl 0)
  | cons c l ih =>
    by_cases hsc : scEq ql c
    · rw [fuzzyLoop_cons_sc ql t c l _ hsc,
        List.find?_cons_of_pos _ (by simpa using hsc)]
    · rw [fuzzyLoop_cons_no_sc ql t c l _ hsc,
        List.find?_cons_of_neg _ (by simpa using hsc)]
      set r := seqRatio ql (pyLower c) with hrdef
      set Ml := maxQ (l.map (fun x => seqRatio ql (pyLower x))) with hMl
      have hMcons : maxQ ((c :: l).map (fun x => seqRatio ql (pyLower x))) = max r Ml := by
        rw [List.map_cons, maxQ_cons]
      have hr0 : (0 : ℚ) ≤ r := seqRatio_nonneg _ _
      simp only [hMcons]
      by_cases hq : (0 : ℚ) < r ∧ t ≤ r
      · rw [if_pos (by exact hq)]
        rw [fuzzyLoop_some_spec ql t l c r hq.2 hq.1]
        rw [fuzzySpecCont]
        cases hf : l.find? (fun x => decide (scEq ql x)) with
        | some d => rfl
        | none =>
          have hcond : t ≤ max r Ml ∧ 0 < max r Ml :=
            ⟨le_trans hq.2 (le_max_left _ _), lt_of_lt_of_le hq.1 (le_max_left _ _)⟩
          rw [if_pos hcond]
          by_cases hrm : r < Ml
          · rw [if_pos hrm, max_eq_right hrm.le]
            obtain ⟨d, hd⟩ := find?_max_of_pos ql l (lt_trans hq.1 hrm)
            rw [List.find?_cons_of_neg _ (by simp [hrdef]; exact ne_of_lt hrm), hd]
          · rw [if_neg hrm, max_eq_left (not_lt.mp hrm)]
            rw [List.find?_cons_of_pos _ (by simp)]
      · rw [if_neg hq, ih]
        cases hf : l.find? (fun x => decide (scEq ql x)) with
        | some d => rfl
        | none =>
          rcases (or_iff_not_imp_left.mpr (fun hne : ¬ r = 0 =>
              ⟨lt_of_le_of_ne hr0 (Ne.symm hne), fun htr =>
                hq ⟨lt_of_le_of_ne hr0 (Ne.symm hne), htr⟩⟩) :
              r = 0 ∨ (0 < r ∧ ¬ t ≤ r)) with hz | ⟨hpos, hnt⟩
          · have hmax : max r Ml = Ml := by
              rw [hz]
              exact max_eq_right (maxQ_nonneg _)
            rw [hmax]
            by_cases hcl : t ≤ Ml ∧ 0 < Ml
            · rw [if_pos hcl, if_pos hcl]
              rw [List.find?_cons_of_neg _ (by
                simp only [decide_eq_true_eq]
                rw [← hrdef, hz]
                exact ne_of_lt hcl.2)]
            · rw [if_neg hcl, if_neg hcl]
          · have hrt : r < t := not_le.mp hnt
            by_cases hcl : t ≤ Ml ∧ 0 < Ml
            · have hmax : max r Ml = Ml :=
                max_eq_right (le_trans hrt.le hcl.1)
              rw [hmax, if_pos hcl, if_pos hcl]
              rw [List.find?_cons_of_neg _ (by
                simp [hrdef]
                exact ne_of_lt (lt_of_lt_of_le hrt hcl.1))]
            · have hcc : ¬ (t ≤ max r Ml ∧ 0 < max r Ml) := by
                intro hcontra
                rcases le_max_iff.mp hcontra.1 with htr | htMl
                · exact absurd htr (not_le.mpr hrt)
                · rcases not_and_or.mp hcl with h1 | h2
                  · exact h1 htMl
                  · have : Ml ≤ 0 := not_lt.mp h2
                    exact absurd (lt_of_lt_of_le hrt (le_trans htMl this)) (not_lt.mpr hr0)
              rw [if_neg hcc]
              exact if_neg hcl

/-- C2: for every query, candidate list and threshold, `fuzzy_match_skill`
realises the spec's deterministic selection policy: an exact or
synonym-equivalent candidate (first in iteration order) wins immediately
with ratio 1.0; otherwise a candidate replaces the best only with a ratio
strictly greater than the current best and ≥ threshold, so the first
candidate attaining the maximal ratio wins when that maximum is positive
and meets the threshold (equality with the threshold accepted, strictly
below rejected, equal-ratio ties keep the first candidate), and when no
candidate qualifies the result is (no match, ratio 0). -/
theorem fuzzy_match_skill_spec (skill : String) (skill_list : List String) (threshold : ℚ) :
    fuzzy_match_skill skill skill_list threshold
      = fuzzyBestSpec skill skill_list threshold := by
  rw [fuzzy_match_skill, fuzzyLoop_none_spec]
  rfl

theorem foldl_mem_inv {α β : Type} (step : List α → β → List α) (P : α → Prop)
    (hstep : ∀ acc s x, x ∈ step acc s → x ∈ acc ∨ P x) :
    ∀ (L : List β) (acc : List α), (∀ x ∈ acc, P x) → ∀ x ∈ L.foldl step acc, P x := by
  intro L
  induction L with
  | nil => intro acc hacc x hx; exact hacc x hx
  | cons s L ih =>
    intro acc hacc x hx
    refine ih (step acc s) ?_ x hx
    intro y hy
    rcases hstep acc s y hy with h | h
    · exact hacc y h
    · exact h

theorem spansFor_wf (cvText tag skill : String) :
    ∀ x ∈ spansFor cvText tag skill, x.start ≤ x.stop := by
  intro x hx
  rw [spansFor, List.mem_map] at hx
  obtain ⟨i, _, rfl⟩ := hx
  exact Nat.le_add_right i _

theorem rawHighlights_wf (cvText : String) (matched cvSkills : List String) :
    ∀ x ∈ rawHighlights cvText matched cvSkills, x.start ≤ x.stop := by
  rw [rawHighlights]
  refine foldl_mem_inv _ _ ?_ cvSkills _ ?_
  · intro acc s x hx
    by_cases hc : pyLower s ∈ matched.map pyLower
    · rw [if_pos hc] at hx
      exact Or.inl hx
    · rw [if_neg hc] at hx
      rcases List.mem_append.mp hx with h | h
      · exact Or.inl h
      · exact Or.inr (spansFor_wf _ _ _ x h)
  · refine foldl_mem_inv _ _ ?_ matched _ (by intro x hx; simp at hx)
    intro acc s x hx
    rcases List.mem_append.mp hx with h | h
    · exact Or.inl h
    · exact Or.inr (spansFor_wf _ _ _ x h)

theorem insByStart_mem (x : Highlight) (l : List Highlight) :
    ∀ y ∈ insByStart x l, y = x ∨ y ∈ l := by
  induction l with
  | nil => intro y hy; simp [insByStart] at hy; exact Or.inl hy
  | cons a l ih =>
    intro y hy
    rw [insByStart] at hy
    by_cases hc : x.start ≤ a.start
    · rw [if_pos hc] at hy
      rcases List.mem_cons.mp hy with h | h
      · exact Or.inl h
      · exact Or.inr h
    · rw [if_neg hc] at hy
      rcases List.mem_cons.mp hy with h | h
      · rw [h]
        exact Or.inr (List.mem_cons_self a l)
      · rcases ih y h with h2 | h2
        · exact Or.inl h2
        · exact Or.inr (List.mem_cons_of_mem a h2)

theorem sortByStart_mem (l : List Highlight) :
    ∀ y ∈ sortByStart l, y ∈ l := by
  induction l with
  | nil => intro y hy; simp [sortByStart] at hy
  | cons a l ih =>
    intro y hy
    rw [sortByStart] at hy
    rcases insByStart_mem a (sortByStart l) y hy with h | h
    · rw [h]; exact List.mem_cons_self a l
    · exact List.mem_cons_of_mem a (ih y h)

theorem sweepGo_mem (l : List Highlight) :
    ∀ (le : Int), ∀ h ∈ sweepGo le l, h ∈ l := by
  induction l with
  | nil => intro le h hh; simp [sweepGo] at hh
  | cons a l ih =>
    intro le h hh
    rw [sweepGo] at hh
    by_cases hc : le ≤ (a.start : Int)
    · rw [if_pos hc] at hh
      rcases List.mem_cons.mp hh with h1 | h1
      · rw [h1]
        exact List.mem_cons_self a l
      · exact List.mem_cons_of_mem a (ih _ h h1)
    · rw [if_neg hc] at hh
      exact List.mem_cons_of_mem a (ih _ h hh)

theorem sweepGo_head_le (l : List Highlight) :
    ∀ (le : Int) (h : Highlight) (rest : List Highlight),
      sweepGo le l = h :: rest → le ≤ (h.start : Int) := by
  induction l with
  | nil => intro le h rest hh; simp [sweepGo] at hh
  | cons a l ih =>
    intro le h rest hh
    rw [sweepGo] at hh
    by_cases hc : le ≤ (a.start : Int)
    · rw [if_pos hc] at hh
      have heq := (List.cons.injEq _ _ _ _).mp hh
      rw [← heq.1]
      exact hc
    · rw [if_neg hc] at hh
      exact ih le h rest hh

theorem sweepGo_chain (l : List Highlight) :
    ∀ (le : Int), List.Chain' (fun a b => a.stop ≤ b.start) (sweepGo le l) := by
  induction l with
  | nil => intro le; simp [sweepGo]
  | cons a l ih =>
    intro le
    rw [sweepGo]
    by_cases hc : le ≤ (a.start : Int)
    · rw [if_pos hc]
      rw [List.chain'_cons']
      refine ⟨?_, ih _⟩
      intro b hb
      cases hs : sweepGo (a.stop : Int) l with
      | nil => rw [hs] at hb; simp at hb
      | cons h2 rest =>
        rw [hs] at hb
        have hb2 : h2 = b := by simpa using hb
        subst hb2
        have := sweepGo_head_le l (a.stop : Int) h2 rest hs
        exact_mod_cast this
    · rw [if_neg hc]
      exact ih le

theorem chain_start_of_chain_stop {l : List Highlight}
    (h1 : List.Chain' (fun a b => a.stop ≤ b.start) l)
    (h2 : ∀ h ∈ l, h.start ≤ h.stop) :
    List.Chain' (fun a b => a.start ≤ b.start) l := by
  induction l with
  | nil => simp
  | cons a l ih =>
    rw [List.chain'_cons'] at h1 ⊢
    refine ⟨?_, ih h1.2 (fun h hm => h2 h (List.mem_cons_of_mem a hm))⟩
    intro b hb
    exact le_trans (h2 a (List.mem_cons_self a l)) (h1.1 b hb)

/-- C6: for every CV text and every pair of matched/known skill lists, the
highlight list produced by `check_score` after the stable sort and the
greedy sweep is non-overlapping (`stop ≤` next `start`), sorted by start
offset, and keeps the first span of the stably sorted list (skill_match
spans emitted before skill_found spans), so the first, leftmost,
highest-priority span wins any overlap. -/
theorem highlights_sorted_nonoverlap (cvText : String) (matched cvSkills : List String) :
    List.Chain' (fun a b => a.stop ≤ b.start) (buildHighlights cvText matched cvSkills)
      ∧ List.Chain' (fun a b => a.start ≤ b.start) (buildHighlights cvText matched cvSkills)
      ∧ (buildHighlights cvText matched cvSkills).head?
          = (sortByStart (rawHighlights cvText matched cvSkills)).head? := by
  have hwf : ∀ h ∈ sortByStart (rawHighlights cvText matched cvSkills), h.start ≤ h.stop :=
    fun h hm => rawHighlights_wf cvText matched cvSkills h
      (sortByStart_mem _ h hm)
  have hchain : List.Chain' (fun a b => a.stop ≤ b.start)
      (buildHighlights cvText matched cvSkills) := sweepGo_chain _ _
  refine ⟨hchain, ?_, ?_⟩
  · refine chain_start_of_chain_stop hchain ?_
    intro h hm
    exact hwf h (sweepGo_mem _ _ h hm)
  · rw [buildHighlights]
    cases hs : sortByStart (rawHighlights cvText matched cvSkills) with
    | nil => rw [sweepGo]
    | cons a rest =>
      rw [sweepGo, if_pos (le_trans (by norm_num) (Int.natCast_nonneg a.start))]
      rfl

theorem foldl_mem_mono {α β : Type} (step : List α → β → List α)
    (hstep : ∀ acc s y, y ∈ acc → y ∈ step acc s) :
    ∀ (L : List β) (acc : List α) (y : α), y ∈ acc → y ∈ L.foldl step acc := by
  intro L
  induction L with
  | nil => intro acc y hy; exact hy
  | cons s L ih => intro acc y hy; exact ih _ y (hstep acc s y hy)

theorem foldl_mem_of_elem {α β : Type} (step : List α → β → List α)
    (hstep : ∀ acc s y, y ∈ acc → y ∈ step acc s)
    (L : List β) (s : β) (hs : s ∈ L) (target : α)
    (hadd : ∀ acc, target ∈ step acc s) :
    ∀ acc, target ∈ L.foldl step acc := by
  induction L with
  | nil => simp at hs
  | cons b L ih =>
    intro acc
    rcases List.mem_cons.mp hs with h | h
    · rw [h] at hadd
      exact foldl_mem_mono step hstep L (step acc b) target (hadd acc)
    · rw [List.foldl_cons]
      exact ih h (step acc b)

theorem setAdd_self (s : List String) (x : String) : x ∈ setAdd s x := by
  rw [setAdd]
  by_cases h : x ∈ s
  · rw [if_pos h]; exact h
  · rw [if_neg h]; exact List.mem_append_right s (List.mem_singleton.mpr rfl)

theorem setAdd_mono {s : List String} {y : String} (x : String) (hy : y ∈ s) :
    y ∈ setAdd s x := by
  rw [setAdd]
  by_cases h : x ∈ s
  · rw [if_pos h]; exact hy
  · rw [if_neg h]; exact List.mem_append_left _ hy

theorem setAdd_cases {s : List String} {x y : String} (hy : y ∈ setAdd s x) :
    y = x ∨ y ∈ s := by
  rw [setAdd] at hy
  by_cases h : x ∈ s
  · rw [if_pos h] at hy; exact Or.inr hy
  · rw [if_neg h] at hy
    rcases List.mem_append.mp hy with h1 | h1
    · exact Or.inr h1
    · exact Or.inl (List.mem_singleton.mp h1)

theorem insByLower_mem (x : String) (l : List String) (y : String) :
    y ∈ insByLower x l ↔ y = x ∨ y ∈ l := by
  induction l with
  | nil => simp [insByLower]
  | cons a l ih =>
    rw [insByLower]
    by_cases hc : lexLt (pyLower x).data (pyLower a).data = true
    · rw [if_pos hc]
      simp [List.mem_cons]
    · rw [if_neg hc]
      rw [List.mem_cons, ih, List.mem_cons]
      tauto

theorem sortByLower_mem (l : List String) (y : String) :
    y ∈ sortByLower l ↔ y ∈ l := by
  induction l with
  | nil => simp [sortByLower]
  | cons a l ih =>
    rw [sortByLower, insByLower_mem, ih, List.mem_cons]

theorem wwSearch_iff (needle hay : List Char) :
    wwSearch needle hay = true ↔ WordOccurs needle hay := by
  rw [wwSearch, WordOccurs, List.any_eq_true]

theorem wordOccurs_nil {needle : List Char} (h : WordOccurs needle []) : False := by
  obtain ⟨i, _, hm⟩ := h
  rw [wwMatchAt] at hm
  have hb : boundaryAt [] i = false := by
    rw [boundaryAt]
    have hw : ∀ j, wordCharAt ([] : List Char) j = false := by
      intro j
      rw [wordCharAt]
      simp
    rw [hw]
    cases i with
    | zero => rfl
    | succ n =>
      rw [if_neg (Nat.succ_ne_zero n)]
      rfl
  rw [Bool.and_eq_true, Bool.and_eq_true] at hm
  rw [hm.1.2] at hb
  simp at hb

theorem syn_keys_nodup : (SKILL_SYNONYMS.map (fun p => p.1)).Nodup := by
  decide

theorem syn_keys_lower_fixed :
    SKILL_SYNONYMS.all (fun p => pyLower p.1 == p.1) = true := by
  decide

theorem find?_assoc_of_nodup :
    ∀ (L : List (String × String)) (p : String × String),
      (L.map (fun q => q.1)).Nodup → p ∈ L →
      L.find? (fun q => decide (q.1 = p.1)) = some p := by
  intro L
  induction L with
  | nil => intro p _ hp; simp at hp
  | cons q L ih =>
    intro p hnd hp
    rw [List.map_cons, List.nodup_cons] at hnd
    rcases List.mem_cons.mp hp with h | h
    · rw [h, List.find?_cons_of_pos _ (by simp)]
    · have hne : ¬ q.1 = p.1 := by
        intro he
        refine hnd.1 ?_
        rw [he]
        exact List.mem_map_of_mem _ h
      rw [List.find?_cons_of_neg _ (by simpa using hne)]
      exact ih p hnd.2 h

theorem synGet_of_mem {p : String × String} (hp : p ∈ SKILL_SYNONYMS) :
    synGet p.1 = p.2 := by
  rw [synGet, synLookup, find?_assoc_of_nodup SKILL_SYNONYMS p syn_keys_nodup hp]
  rfl

set_option maxHeartbeats 2000000 in
set_option maxRecDepth 20000 in
/-- C5: for every text and every taxonomy entry (catalog skill or synonym),
a word-boundary-anchored (`\b` on both sides), case-insensitive occurrence
of the entry in the text adds the entry's canonical form to the extraction
result; and a shorter skill never matches as a substring inside a longer
token: "java" is not extracted from "javascript developer". -/
theorem extract_whole_word :
    (∀ (text entry : String),
        (entry ∈ TECH_SKILLS ∨ ∃ p ∈ SKILL_SYNONYMS, p.1 = entry) →
        WordOccurs (pyLower entry).data (pyLower text).data →
        synGet (pyLower entry) ∈ extract_skills text [])
      ∧ "java" ∉ extract_skills "javascript developer" [] := by
  constructor
  · intro text entry hentry hocc
    have htext : ¬ text = "" := by
      intro he
      rw [he] at hocc
      exact wordOccurs_nil hocc
    simp only [extract_skills, if_neg htext, List.foldl_nil]
    rw [sortByLower_mem]
    have hmono2 : ∀ (acc : List String) (p : String × String) (y : String),
        y ∈ acc → y ∈ (if wwSearch (pyLower p.1).data (pyLower text).data = true then
          setAdd acc p.2 else acc) := by
      intro acc p y hy
      by_cases hs : wwSearch (pyLower p.1).data (pyLower text).data = true
      · rw [if_pos hs]
        exact setAdd_mono _ hy
      · rw [if_neg hs]
        exact hy
    have hmono1 : ∀ (acc : List String) (skill : String) (y : String),
        y ∈ acc → y ∈ (if wwSearch (pyLower skill).data (pyLower text).data = true then
          setAdd acc (synGet (pyLower skill)) else acc) := by
      intro acc skill y hy
      by_cases hs : wwSearch (pyLower skill).data (pyLower text).data = true
      · rw [if_pos hs]
        exact setAdd_mono _ hy
      · rw [if_neg hs]
        exact hy
    rcases hentry with hcat | ⟨p, hp, hpk⟩
    · refine foldl_mem_mono _ hmono2 SKILL_SYNONYMS _ _ ?_
      refine foldl_mem_of_elem _ hmono1 TECH_SKILLS entry hcat _ ?_ []
      intro acc
      rw [if_pos ((wwSearch_iff _ _).mpr hocc)]
      exact setAdd_self _ _
    · have hklow : pyLower p.1 = p.1 := by
        have := List.all_eq_true.mp syn_keys_lower_fixed p hp
        simpa using this
      have htarget : synGet (pyLower entry) = p.2 := by
        rw [← hpk, hklow]
        exact synGet_of_mem hp
      rw [htarget]
      refine foldl_mem_of_elem _ hmono2 SKILL_SYNONYMS p hp _ ?_ _
      intro acc
      rw [if_pos]
      · exact setAdd_self _ _
      · rw [wwSearch_iff, hpk]
        exact hocc
  · decide

/-- Witness for C5 at the catalog entry "python" occurring whole-word in a
concrete text. -/
theorem extract_whole_word_witness :
    ("python" ∈ TECH_SKILLS ∨ ∃ p ∈ SKILL_SYNONYMS, p.1 = "python") ∧
      WordOccurs (pyLower "python").data (pyLower "we use Python daily").data ∧
      synGet (pyLower "python") ∈ extract_skills "we use Python daily" [] :=
  ⟨Or.inl (by decide), by decide,
    extract_whole_word.1 "we use Python daily" "python" (Or.inl (by decide)) (by decide)⟩

set_option maxHeartbeats 1000000 in
set_option maxRecDepth 20000 in
/-- C9 counterexample: "es6" is a known taxonomy entry (a synonym of
"javascript") and survives trimming/lower-casing unchanged, yet an external
candidate "es6" is discarded — the entity filter consults only the catalog
set `TECH_SKILLS_SET`, which does not contain "es6" — so no canonical form
is added at all. -/
theorem extract_candidates_synonym_discarded :
    (("es6", "javascript") ∈ SKILL_SYNONYMS) ∧
      pyLowerStrip "es6" = "es6" ∧
      ¬ "es6" ∈ TECH_SKILLS_SET ∧
      extract_skills "zzz" [⟨"ORG", "es6"⟩] = [] := by
  refine ⟨by decide, by decide, by decide, by decide⟩

theorem foldl_mem_inv_strong {α β : Type} (step : List α → β → List α) (P : α → Prop) :
    ∀ (L : List β), (∀ acc s, s ∈ L → ∀ x, x ∈ step acc s → x ∈ acc ∨ P x) →
      ∀ (acc : List α), (∀ x ∈ acc, P x) → ∀ x ∈ L.foldl step acc, P x := by
  intro L
  induction L with
  | nil => intro _ acc hacc x hx; exact hacc x hx
  | cons s L ih =>
    intro hstep acc hacc x hx
    refine ih (fun a d hd => hstep a d (List.mem_cons_of_mem s hd)) (step acc s) ?_ x hx
    intro y hy
    rcases hstep acc s (List.mem_cons_self s L) y hy with h | h
    · exact hacc y h
    · exact h

theorem canonicalForms_of_catalog {s : String} (hs : s ∈ TECH_SKILLS) :
    synGet (pyLower s) ∈ canonicalForms :=
  List.mem_append_left _ (List.mem_map_of_mem _ hs)

theorem canonicalForms_of_syn {p : String × String} (hp : p ∈ SKILL_SYNONYMS) :
    p.2 ∈ canonicalForms :=
  List.mem_append_right _ (List.mem_map_of_mem _ hp)

/-- C9 (amended): an external entity candidate whose trimmed lower-cased
form passes the gates (label ORG/PRODUCT/WORK_OF_ART, length 2–30) and is a
member of the lower-cased catalog set `TECH_SKILLS_SET` contributes its
canonical form; all other candidates are discarded (synonyms that are not
catalog entries included), and the extractor never emits a string outside
the taxonomy's canonical forms. -/
theorem extract_candidates_catalog_filter :
    (∀ (text : String) (ents : List Ent) (e : Ent), e ∈ ents →
        e.label ∈ (["ORG", "PRODUCT", "WORK_OF_ART"] : List String) →
        2 ≤ (pyLowerStrip e.etext).length →
        (pyLowerStrip e.etext).length ≤ 30 →
        pyLowerStrip e.etext ∈ TECH_SKILLS_SET →
        text ≠ "" →
        synGet (pyLowerStrip e.etext) ∈ extract_skills text ents)
      ∧ (∀ (text : String) (ents : List Ent) (x : String),
          x ∈ extract_skills text ents → x ∈ canonicalForms) := by
  constructor
  · intro text ents e hel hlab hlen2 hlen30 hset htext
    simp only [extract_skills, if_neg htext]
    rw [sortByLower_mem]
    have hmono3 : ∀ (acc : List String) (d : Ent) (y : String), y ∈ acc →
        y ∈ (if d.label ∈ (["ORG", "PRODUCT", "WORK_OF_ART"] : List String) then
          if 2 ≤ (pyLowerStrip d.etext).length ∧ (pyLowerStrip d.etext).length ≤ 30 then
            if pyLowerStrip d.etext ∈ TECH_SKILLS_SET then
              setAdd acc (synGet (pyLowerStrip d.etext))
            else acc
          else acc
        else acc) := by
      intro acc d y hy
      split
      · split
        · split
          · exact setAdd_mono _ hy
          · exact hy
        · exact hy
      · exact hy
    refine foldl_mem_of_elem _ hmono3 ents e hel _ ?_ _
    intro acc
    rw [if_pos hlab, if_pos ⟨hlen2, hlen30⟩, if_pos hset]
    exact setAdd_self _ _
  · intro text ents x hx
    by_cases htext : text = ""
    · rw [extract_skills, if_pos htext] at hx
      simp at hx
    · simp only [extract_skills, if_neg htext] at hx
      rw [sortByLower_mem] at hx
      refine foldl_mem_inv_strong _ (fun y => y ∈ canonicalForms) ents ?_ _ ?_ x hx
      · intro acc d _ y hy
        by_cases h1 : d.label ∈ (["ORG", "PRODUCT", "WORK_OF_ART"] : List String)
        · rw [if_pos h1] at hy
          by_cases h2 : 2 ≤ (pyLowerStrip d.etext).length ∧ (pyLowerStrip d.etext).length ≤ 30
          · rw [if_pos h2] at hy
            by_cases h3 : pyLowerStrip d.etext ∈ TECH_SKILLS_SET
            · rw [if_pos h3] at hy
              rcases setAdd_cases hy with h | h
              · obtain ⟨s0, hs0, hs0e⟩ := List.mem_map.mp h3
                rw [h, ← hs0e]
                exact Or.inr (canonicalForms_of_catalog hs0)
              · exact Or.inl h
            · rw [if_neg h3] at hy
              exact Or.inl hy
          · rw [if_neg h2] at hy
            exact Or.inl hy
        · rw [if_neg h1] at hy
          exact Or.inl hy
      · intro y hy
        refine foldl_mem_inv_strong _ (fun z => z ∈ canonicalForms) SKILL_SYNONYMS ?_ _ ?_ y hy
        · intro acc p hp z hz
          by_cases hs : wwSearch (pyLower p.1).data (pyLower text).data = true
          · rw [if_pos hs] at hz
            rcases setAdd_cases hz with h | h
            · rw [h]
              exact Or.inr (canonicalForms_of_syn hp)
            · exact Or.inl h
          · rw [if_neg hs] at hz
            exact Or.inl hz
        · intro z hz
          refine foldl_mem_inv_strong _ (fun w => w ∈ canonicalForms) TECH_SKILLS ?_ _ ?_ z hz
          · intro acc skill hskill w hw
            by_cases hs : wwSearch (pyLower skill).data (pyLower text).data = true
            · rw [if_pos hs] at hw
              rcases setAdd_cases hw with h | h
              · rw [h]
                exact Or.inr (canonicalForms_of_catalog hskill)
              · exact Or.inl h
            · rw [if_neg hs] at hw
              exact Or.inl hw
          · intro w hw
            simp at hw

set_option maxHeartbeats 1000000 in
set_option maxRecDepth 20000 in
/-- Witness for the amended C9 theorem: the candidate "k8s" (label ORG)
passes every gate and contributes its canonical form "kubernetes". -/
theorem extract_candidates_catalog_filter_witness :
    ((⟨"ORG", "k8s"⟩ : Ent) ∈ ([⟨"ORG", "k8s"⟩] : List Ent)) ∧
      "ORG" ∈ (["ORG", "PRODUCT", "WORK_OF_ART"] : List String) ∧
      2 ≤ (pyLowerStrip "k8s").length ∧ (pyLowerStrip "k8s").length ≤ 30 ∧
      pyLowerStrip "k8s" ∈ TECH_SKILLS_SET ∧
      synGet (pyLowerStrip "k8s") ∈ extract_skills "zzz" [⟨"ORG", "k8s"⟩] :=
  ⟨List.mem_singleton.mpr rfl, by decide, by decide, by decide, by decide,
    extract_candidates_catalog_filter.1 "zzz" [⟨"ORG", "k8s"⟩] ⟨"ORG", "k8s"⟩
      (List.mem_singleton.mpr rfl) (by decide) (by decide) (by decide) (by decide)
      (by decide)⟩

theorem collapseWs_chars : ∀ (l : List Char) (b : Bool),
    ∀ c ∈ collapseWs l b, c = ' ' ∨ c ∈ l := by
  intro l
  induction l with
  | nil => intro b c hc; simp [collapseWs] at hc
  | cons a rest ih =>
    intro b c hc
    rw [collapseWs] at hc
    by_cases ha : pySpace a = true
    · rw [if_pos ha] at hc
      cases b with
      | true =>
        rcases ih true c hc with h | h
        · exact Or.inl h
        · exact Or.inr (List.mem_cons_of_mem a h)
      | false =>
        rcases List.mem_cons.mp hc with h | h
        · exact Or.inl h
        · rcases ih true c h with h2 | h2
          · exact Or.inl h2
          · exact Or.inr (List.mem_cons_of_mem a h2)
    · rw [if_neg ha] at hc
      rcases List.mem_cons.mp hc with h | h
      · rw [h]
        exact Or.inr (List.mem_cons_self a rest)
      · rcases ih false c h with h2 | h2
        · exact Or.inl h2
        · exact Or.inr (List.mem_cons_of_mem a h2)

theorem collapseWs_ws_is_space : ∀ (l : List Char) (b : Bool),
    ∀ c ∈ collapseWs l b, pySpace c = true → c = ' ' := by
  intro l
  induction l with
  | nil => intro b c hc; simp [collapseWs] at hc
  | cons a rest ih =>
    intro b c hc hs
    rw [collapseWs] at hc
    by_cases ha : pySpace a = true
    · rw [if_pos ha] at hc
      cases b with
      | true => exact ih true c hc hs
      | false =>
        rcases List.mem_cons.mp hc with h | h
        · exact h
        · exact ih true c h hs
    · rw [if_neg ha] at hc
      rcases List.mem_cons.mp hc with h | h
      · rw [h] at hs
        exact absurd hs ha
      · exact ih false c h hs

theorem collapseWs_head_true (l : List Char) :
    ∀ c, (collapseWs l true).head? = some c → pySpace c = false := by
  induction l with
  | nil => intro c hc; simp [collapseWs] at hc
  | cons a rest ih =>
    intro c hc
    rw [collapseWs] at hc
    by_cases ha : pySpace a = true
    · rw [if_pos ha, if_pos rfl] at hc
      exact ih c hc
    · rw [if_neg ha] at hc
      simp only [List.head?_cons, Option.some_inj] at hc
      rw [← hc]
      simpa using ha

theorem collapseWs_chain : ∀ (l : List Char) (b : Bool),
    List.Chain' (fun a c => pySpace a = false ∨ pySpace c = false) (collapseWs l b) := by
  intro l
  induction l with
  | nil => intro b; simp [collapseWs]
  | cons a rest ih =>
    intro b
    rw [collapseWs]
    by_cases ha : pySpace a = true
    · rw [if_pos ha]
      cases b with
      | true => exact ih true
      | false =>
        rw [if_neg (by simp)]
        rw [List.chain'_cons']
        refine ⟨?_, ih true⟩
        intro c hc
        refine Or.inr (collapseWs_head_true rest c ?_)
        simpa using hc
    · rw [if_neg ha]
      rw [List.chain'_cons']
      refine ⟨fun c _ => Or.inl (by simpa using ha), ih false⟩

theorem pyStripL_subset {l : List Char} {c : Char} (hc : c ∈ pyStripL l) : c ∈ l := by
  rw [pyStripL] at hc
  rw [List.mem_reverse] at hc
  have h1 := (List.dropWhile_suffix pySpace).sublist.mem hc
  rw [List.mem_reverse] at h1
  exact (List.dropWhile_suffix pySpace).sublist.mem h1

theorem pyStripL_chain {l : List Char}
    (h : List.Chain' (fun a c => pySpace a = false ∨ pySpace c = false) l) :
    List.Chain' (fun a c => pySpace a = false ∨ pySpace c = false) (pyStripL l) := by
  rw [pyStripL]
  have hsymm : ∀ (x : List Char),
      List.Chain' (fun a c => pySpace a = false ∨ pySpace c = false) x →
      List.Chain' (fun a c => pySpace a = false ∨ pySpace c = false) x.reverse := by
    intro x hx
    rw [List.chain'_reverse]
    exact hx.imp (fun a c hac => hac.symm)
  refine hsymm _ (List.Chain'.suffix ?_ (List.dropWhile_suffix pySpace))
  exact hsymm _ (List.Chain'.suffix h (List.dropWhile_suffix pySpace))

theorem pyStripL_noEdge (l : List Char) : NoEdgeWs (pyStripL l) := by
  constructor
  · intro c hc
    rw [pyStripL, List.head?_reverse] at hc
    rcases hB : (l.dropWhile pySpace).reverse.dropWhile pySpace with _ | ⟨b, bt⟩
    · rw [hB] at hc
      simp at hc
    · have hsuf : (l.dropWhile pySpace).reverse.dropWhile pySpace <:+
          (l.dropWhile pySpace).reverse := List.dropWhile_suffix _
      have hgl : ((l.dropWhile pySpace).reverse.dropWhile pySpace).getLast?
          = (l.dropWhile pySpace).reverse.getLast? :=
        getLast?_of_suffix hsuf (by rw [hB]; exact List.cons_ne_nil _ _)
      rw [hgl, List.getLast?_reverse] at hc
      exact dropWhile_head_false pySpace l c hc
  · intro c hc
    rw [pyStripL, List.getLast?_reverse] at hc
    exact dropWhile_head_false pySpace _ c hc

/-- C7 counterexample: on "a $ b" the disallowed character is removed after
whitespace collapsing, leaving two adjacent spaces — the output is
"a  b", which still contains a whitespace run. -/
theorem clean_text_double_space :
    clean_text "a $ b" = "a  b" ∧ ¬ NoWsRun (clean_text "a $ b").data := by
  constructor
  · decide
  · intro h
    rw [show clean_text "a $ b" = "a  b" from by decide] at h
    rw [show ("a  b" : String).data = ['a', ' ', ' ', 'b'] from rfl] at h
    have h2 := (List.chain'_cons.mp (List.chain'_cons.mp h).2).1
    rcases h2 with hf | hf <;> exact absurd hf (by decide)

/-- C7 (amended): for every input, `clean_text` yields only characters from
the allow-list, and empty input yields the empty string; the
whitespace-collapse and trim guarantees hold for inputs without disallowed
characters (whitespace runs collapsed to single spaces, nothing but plain
spaces as whitespace, no leading or trailing whitespace), but character
removal happens after collapsing and trimming, so disallowed characters can
leave double or leading/trailing spaces behind. -/
theorem clean_text_props :
    (∀ s : String, ∀ c ∈ (clean_text s).data, allowedChar c = true) ∧
      clean_text "" = "" ∧
      (∀ s : String, (∀ c ∈ s.data, allowedChar c = true) →
        NoWsRun (clean_text s).data ∧ WsIsSpace (clean_text s).data ∧
          NoEdgeWs (clean_text s).data) := by
  refine ⟨?_, rfl, ?_⟩
  · intro s c hc
    rw [clean_text] at hc
    by_cases hs : s = ""
    · rw [if_pos hs] at hc
      simp at hc
    · rw [if_neg hs] at hc
      exact (List.mem_filter.mp hc).2
  · intro s hall
    by_cases hs : s = ""
    · rw [hs]
      refine ⟨by simp [clean_text, NoWsRun], ?_, ?_⟩
      · intro c hc
        simp [clean_text] at hc
      · constructor
        · intro c hc
          simp [clean_text] at hc
        · intro c hc
          simp [clean_text] at hc
    · have hfilter : (pyStripL (collapseWs s.data false)).filter allowedChar
          = pyStripL (collapseWs s.data false) := by
        rw [List.filter_eq_self]
        intro c hc
        rcases collapseWs_chars s.data false c (pyStripL_subset hc) with h | h
        · rw [h]
          decide
        · exact hall c h
      have hdata : (clean_text s).data = pyStripL (collapseWs s.data false) := by
        rw [clean_text, if_neg hs]
        exact hfilter
      rw [hdata]
      refine ⟨pyStripL_chain (collapseWs_chain s.data false), ?_, pyStripL_noEdge _⟩
      intro c hc hsp
      exact collapseWs_ws_is_space s.data false c (pyStripL_subset hc) hsp

/-- Witness for the amended C7 theorem on a concrete allow-listed input with
messy whitespace. -/
theorem clean_text_props_witness :
    (∀ c ∈ ("  hello   world " : String).data, allowedChar c = true) ∧
      (NoWsRun (clean_text "  hello   world ").data ∧
        WsIsSpace (clean_text "  hello   world ").data ∧
        NoEdgeWs (clean_text "  hello   world ").data) ∧
      clean_text "  hello   world " = "hello world" :=
  ⟨by decide, clean_text_props.2.2 "  hello   world " (by decide), by decide⟩

theorem weights_pos : ∀ p ∈ SKILL_WEIGHTS, (0 : ℚ) < p.2 := by
  intro p hp
  fin_cases hp <;> norm_num

theorem weightOf_pos (c : String) : 0 < weightOf c := by
  rw [weightOf]
  cases hf : SKILL_WEIGHTS.find? (fun p => decide (p.1 = c)) with
  | none => norm_num
  | some p => exact weights_pos p (List.mem_of_find?_eq_some hf)

theorem sumWeights_pos {l : List String} (h : l ≠ []) : 0 < sumWeights l := by
  cases l with
  | nil => exact absurd rfl h
  | cons x xs =>
    rw [sumWeights, List.map_cons, List.sum_cons]
    have h1 : (0 : ℚ) ≤ (xs.map weightOf).sum :=
      List.sum_nonneg (by
        intro q hq
        obtain ⟨y, _, rfl⟩ := List.mem_map.mp hq
        exact (weightOf_pos y).le)
    have h2 := weightOf_pos x
    linarith

theorem dictKeys_dictUpd {α : Type} (d : List (String × α)) (k : String) (v : α) :
    dictKeys (dictUpd d k v) = dictKeys d ∨
      dictKeys (dictUpd d k v) = dictKeys d ++ [k] := by
  rw [dictUpd]
  by_cases h : d.any (fun p => decide (p.1 = k)) = true
  · rw [if_pos h]
    refine Or.inl ?_
    rw [dictKeys, dictKeys, List.map_map]
    refine List.map_congr_left ?_
    intro p _
    by_cases hp : p.1 = k
    · simp [hp]
    · simp [hp]
  · rw [if_neg h]
    refine Or.inr ?_
    rw [dictKeys, dictKeys, List.map_append]
    rfl

theorem normDict_keys_norm (skills : List String) :
    ∀ k ∈ dictKeys (normDict skills), ∃ s, k = normalize_skill s := by
  rw [normDict]
  have : ∀ (L : List String) (d : List (String × String)),
      (∀ k ∈ dictKeys d, ∃ s, k = normalize_skill s) →
      ∀ k ∈ dictKeys (L.foldl (fun d s => dictUpd d (normalize_skill s) s) d),
        ∃ s, k = normalize_skill s := by
    intro L
    induction L with
    | nil => intro d hd k hk; exact hd k hk
    | cons x xs ih =>
      intro d hd k hk
      rw [List.foldl_cons] at hk
      refine ih _ ?_ k hk
      intro k2 hk2
      rcases dictKeys_dictUpd d (normalize_skill x) x with he | he
      · rw [he] at hk2
        exact hd k2 hk2
      · rw [he] at hk2
        rcases List.mem_append.mp hk2 with h1 | h1
        · exact hd k2 h1
        · exact ⟨x, List.mem_singleton.mp h1⟩
  refine this skills [] ?_
  intro k hk
  simp [dictKeys] at hk

theorem dictUpd_ne_nil {α : Type} (d : List (String × α)) (k : String) (v : α) :
    dictUpd d k v ≠ [] := by
  rw [dictUpd]
  by_cases h : d.any (fun p => decide (p.1 = k)) = true
  · rw [if_pos h]
    intro he
    rw [List.map_eq_nil_iff] at he
    rw [he] at h
    simp at h
  · rw [if_neg h]
    simp

theorem normDict_ne_nil {skills : List String} (h : skills ≠ []) :
    normDict skills ≠ [] := by
  rw [normDict]
  cases skills with
  | nil => exact absurd rfl h
  | cons x xs =>
    rw [List.foldl_cons]
    have : ∀ (L : List String) (d : List (String × String)), d ≠ [] →
        L.foldl (fun d s => dictUpd d (normalize_skill s) s) d ≠ [] := by
      intro L
      induction L with
      | nil => intro d hd; exact hd
      | cons y ys ih =>
        intro d hd
        rw [List.foldl_cons]
        exact ih _ (dictUpd_ne_nil d _ y)
    exact this xs _ (dictUpd_ne_nil [] _ x)

theorem fuzzyLoop_result (ql : String) (t : ℚ) :
    ∀ (l : List String) (b : Option String) (br : ℚ), 0 ≤ br →
      fuzzyLoop ql t l (b, br) = (b, br) ∨
        (∃ c ∈ l, fuzzyLoop ql t l (b, br) = (some c, 1) ∧ scEq ql c) ∨
        (∃ c ∈ l, ∃ r : ℚ, fuzzyLoop ql t l (b, br) = (some c, r) ∧
          r = seqRatio ql (pyLower c) ∧ t ≤ r ∧ 0 < r) := by
  intro l
  induction l with
  | nil => intro b br _; exact Or.inl rfl
  | cons c l ih =>
    intro b br hbr
    by_cases hsc : scEq ql c
    · rw [fuzzyLoop_cons_sc ql t c l _ hsc]
      exact Or.inr (Or.inl ⟨c, List.mem_cons_self c l, rfl, hsc⟩)
    · rw [fuzzyLoop_cons_no_sc ql t c l _ hsc]
      by_cases hup : br < seqRatio ql (pyLower c) ∧ t ≤ seqRatio ql (pyLower c)
      · rw [if_pos hup]
        have hrpos : 0 < seqRatio ql (pyLower c) := lt_of_le_of_lt hbr hup.1
        rcases ih (some c) (seqRatio ql (pyLower c)) hrpos.le with h1 | h2 | h3
        · refine Or.inr (Or.inr ⟨c, List.mem_cons_self c l, _, h1, rfl, hup.2, hrpos⟩)
        · obtain ⟨d, hd, he, hsd⟩ := h2
          exact Or.inr (Or.inl ⟨d, List.mem_cons_of_mem c hd, he, hsd⟩)
        · obtain ⟨d, hd, r, he, hr1, hr2, hr3⟩ := h3
          exact Or.inr (Or.inr ⟨d, List.mem_cons_of_mem c hd, r, he, hr1, hr2, hr3⟩)
      · rw [if_neg hup]
        rcases ih b br hbr with h1 | h2 | h3
        · exact Or.inl h1
        · obtain ⟨d, hd, he, hsd⟩ := h2
          exact Or.inr (Or.inl ⟨d, List.mem_cons_of_mem c hd, he, hsd⟩)
        · obtain ⟨d, hd, r, he, hr1, hr2, hr3⟩ := h3
          exact Or.inr (Or.inr ⟨d, List.mem_cons_of_mem c hd, r, he, hr1, hr2, hr3⟩)

theorem matchTotal_nil_right (a : List Char) : matchTotal a [] = 0 := by
  rw [matchTotal]
  show matchTotalGo a [] (a.length + 0 + 1) 0 a.length 0 0 = 0
  rw [show a.length + 0 + 1 = a.length + 1 from by omega]
  rw [matchTotalGo]
  have hbs : bestSize a [] 0 a.length 0 0 = 0 := by
    rw [bestSize]
    simp
  rw [hbs]
  simp

theorem seqRatio_empty_right {a : String} (h : a ≠ "") : seqRatio a "" = 0 := by
  have hlen : a.data.length ≠ 0 := by
    intro he
    refine h ?_
    rw [List.length_eq_zero] at he
    cases a with
    | mk d =>
      show String.mk d = String.mk []
      rw [show d = ([] : List Char) from he]
  rw [seqRatio]
  rw [if_neg (by simpa using hlen)]
  rw [show ("" : String).data = [] from rfl, matchTotal_nil_right]
  simp

theorem fuzzy_in_scorer {q : String} {ck : List String} {t : ℚ}
    (hq : normalize_skill q = q) (hql : pyLower q = q)
    (hck : ∀ c ∈ ck, normalize_skill c = c ∧ pyLower c = c)
    (hqnot : q ∉ ck) (ht : 0 < t) :
    ∀ c r, fuzzy_match_skill q ck t = (some c, r) → c ≠ "" := by
  intro c r hfz
  rw [fuzzy_match_skill, hql] at hfz
  rcases fuzzyLoop_result q t ck none 0 le_rfl with h1 | h2 | h3
  · rw [h1] at hfz
    exact absurd (congrArg Prod.fst hfz) (by simp)
  · obtain ⟨d, hd, he, hsd⟩ := h2
    rcases hsd with hx | hx
    · rw [(hck d hd).2] at hx
      rw [← hx] at hd
      exact absurd hd hqnot
    · rw [(hck d hd).2] at hx
      rw [hq, (hck d hd).1] at hx
      rw [← hx] at hd
      exact absurd hd hqnot
  · obtain ⟨d, hd, r2, he, hr1, hr2, hr3⟩ := h3
    rw [he] at hfz
    have hcd : c = d := by
      have := congrArg Prod.fst hfz
      simpa using this.symm
    intro hce
    rw [hcd] at hce
    rw [hce] at hd hr1
    have hqne : q ≠ "" := by
      intro hqe
      rw [← hqe] at hd
      exact hqnot hd
    rw [show pyLower "" = "" from rfl, seqRatio_empty_right hqne] at hr1
    rw [hr1] at hr3
    exact absurd hr3 (lt_irrefl 0)

theorem credit_eq {t : ℚ} (ht : 0 < t) {ck : List String}
    (hck : ∀ c ∈ ck, normalize_skill c = c ∧ pyLower c = c)
    {c : String} (hc : normalize_skill c = c) (hcl : pyLower c = c) :
    codeCredit t ck c = specCredit t ck c := by
  rw [codeCredit, specCredit]
  by_cases hmem : c ∈ ck
  · rw [if_pos hmem, if_pos hmem]
  · rw [if_neg hmem, if_neg hmem]
    cases hfz : fuzzy_match_skill c ck t with
    | mk b r =>
      cases b with
      | none => simp [pyTruthy]
      | some m =>
        have hm : m ≠ "" := fuzzy_in_scorer hc hcl hck hmem ht m r hfz
        simp [pyTruthy, hm]

theorem simpleStep_proj (ck : List String) (acc : SimpleAcc) (pr : String × String) :
    (simpleStep ck acc pr).tw = acc.tw + weightOf pr.1 ∧
      (simpleStep ck acc pr).mw = acc.mw + codeCredit 0.85 ck pr.1 := by
  rw [simpleStep, codeCredit]
  by_cases hmem : pr.1 ∈ ck
  · rw [if_pos hmem, if_pos hmem]
    exact ⟨rfl, rfl⟩
  · rw [if_neg hmem, if_neg hmem]
    by_cases htr : pyTruthy (fuzzy_match_skill pr.1 ck 0.85).1 = true
    · rw [if_pos htr, if_pos htr]
      exact ⟨rfl, rfl⟩
    · rw [if_neg htr, if_neg htr]
      exact ⟨rfl, (add_zero acc.mw).symm⟩

theorem simpleFold_proj (ck : List String) :
    ∀ (l : List (String × String)) (acc : SimpleAcc),
      (l.foldl (simpleStep ck) acc).tw
          = acc.tw + sumWeights (l.map (fun p => p.1)) ∧
        (l.foldl (simpleStep ck) acc).mw
          = acc.mw + (l.map (fun p => codeCredit 0.85 ck p.1)).sum := by
  intro l
  induction l with
  | nil =>
    intro acc
    constructor
    · rw [List.foldl_nil, sumWeights]
      simp
    · simp
  | cons pr l ih =>
    intro acc
    rw [List.foldl_cons]
    rcases ih (simpleStep ck acc pr) with ⟨h1, h2⟩
    rcases simpleStep_proj ck acc pr with ⟨h3, h4⟩
    constructor
    · rw [h1, h3]
      simp only [sumWeights, List.map_cons, List.sum_cons, List.map_map]
      ring
    · rw [h2, h4, List.map_cons, List.sum_cons]
      ring

theorem detailedStep_proj (cn : List (String × String)) (acc : DetailedAcc)
    (pr : String × String) :
    (detailedStep cn acc pr).tw = acc.tw + weightOf pr.1 ∧
      (detailedStep cn acc pr).mw = acc.mw + codeCredit 0.80 (dictKeys cn) pr.1 := by
  rw [detailedStep, codeCredit]
  by_cases hmem : pr.1 ∈ dictKeys cn
  · rw [if_pos hmem, if_pos hmem]
    exact ⟨rfl, rfl⟩
  · rw [if_neg hmem, if_neg hmem]
    by_cases htr : pyTruthy (fuzzy_match_skill pr.1 (dictKeys cn) 0.80).1 = true
    · rw [if_pos htr, if_pos htr]
      exact ⟨rfl, rfl⟩
    · rw [if_neg htr, if_neg htr]
      exact ⟨rfl, (add_zero acc.mw).symm⟩

theorem detailedFold_proj (cn : List (String × String)) :
    ∀ (l : List (String × String)) (acc : DetailedAcc),
      (l.foldl (detailedStep cn) acc).tw
          = acc.tw + sumWeights (l.map (fun p => p.1)) ∧
        (l.foldl (detailedStep cn) acc).mw
          = acc.mw + (l.map (fun p => codeCredit 0.80 (dictKeys cn) p.1)).sum := by
  intro l
  induction l with
  | nil =>
    intro acc
    constructor
    · rw [List.foldl_nil, sumWeights]
      simp
    · simp
  | cons pr l ih =>
    intro acc
    rw [List.foldl_cons]
    rcases ih (detailedStep cn acc pr) with ⟨h1, h2⟩
    rcases detailedStep_proj cn acc pr with ⟨h3, h4⟩
    constructor
    · rw [h1, h3]
      simp only [sumWeights, List.map_cons, List.sum_cons, List.map_map]
      ring
    · rw [h2, h4, List.map_cons, List.sum_cons]
      ring

theorem canonKeys_norm (skills : List String) :
    ∀ c ∈ canonKeys skills, normalize_skill c = c ∧ pyLower c = c := by
  intro c hc
  obtain ⟨s, rfl⟩ := normDict_keys_norm skills c hc
  exact ⟨normalize_skill_idem_aux s, pyLower_normalize_fixed s⟩

theorem credit_sum_eq {t : ℚ} (ht : 0 < t) (job cand : List String) :
    ((normDict job).map (fun p => codeCredit t (canonKeys cand) p.1)).sum
      = sumCredits t (canonKeys cand) (canonKeys job) := by
  rw [sumCredits]
  rw [show canonKeys job = (normDict job).map (fun p => p.1) from rfl]
  rw [List.map_map]
  refine congrArg List.sum (List.map_congr_left ?_)
  intro p hp
  have hmem : p.1 ∈ canonKeys job := by
    rw [canonKeys, dictKeys]
    exact List.mem_map_of_mem _ hp
  rcases canonKeys_norm job p.1 hmem with ⟨h1, h2⟩
  exact credit_eq ht (canonKeys_norm cand) h1 h2

/-- C1: for every non-empty required list, the simple scorer computes, per
distinct canonical required skill, the taxonomy weight (default 1.0) into
the total, credits the full weight on a canonical hit among the possessed
canonical forms, weight × ratio when the fuzzy matcher (threshold 0.85;
0.80 in the detailed form) returns a hit, nothing otherwise, and returns
matchedWeight / totalWeight × 100 rounded to 2 decimal places (the detailed
form reports the same quantity as its weighted percentage). -/
theorem calculate_skill_match_weighted (job cand : List String) (h : job ≠ []) :
    (calculate_skill_match job cand).1
        = round2 (sumCredits 0.85 (canonKeys cand) (canonKeys job)
            / sumWeights (canonKeys job) * 100)
      ∧ (calculate_skill_match_detailed job cand).weighted_percentage
        = round2 (sumCredits 0.80 (canonKeys cand) (canonKeys job)
            / sumWeights (canonKeys job) * 100) := by
  have hkeys : canonKeys job ≠ [] := by
    rw [canonKeys, dictKeys]
    intro he
    rw [List.map_eq_nil_iff] at he
    exact normDict_ne_nil h he
  have htw_pos : 0 < sumWeights (canonKeys job) := sumWeights_pos hkeys
  constructor
  · rw [calculate_skill_match, if_neg h]
    rcases simpleFold_proj (dictKeys (normDict cand)) (normDict job) ⟨0, 0, []⟩
      with ⟨h1, h2⟩
    show round2 (if 0 < ((normDict job).foldl (simpleStep (dictKeys (normDict cand)))
        ⟨0, 0, []⟩).tw then _ / _ * 100 else 0) = _
    rw [h1, h2]
    have hck : dictKeys (normDict cand) = canonKeys cand := rfl
    have hjw : sumWeights ((normDict job).map (fun p => p.1))
        = sumWeights (canonKeys job) := rfl
    rw [hck, hjw, credit_sum_eq (by norm_num) job cand, zero_add, zero_add,
      if_pos htw_pos]
  · rw [calculate_skill_match_detailed, if_neg h]
    rcases detailedFold_proj (normDict cand) (normDict job) ⟨[], [], [], [], 0, 0⟩
      with ⟨h1, h2⟩
    show round2 (if 0 < ((normDict job).foldl (detailedStep (normDict cand))
        ⟨[], [], [], [], 0, 0⟩).tw then _ / _ * 100 else 0) = _
    rw [h1, h2]
    have hck : dictKeys (normDict cand) = canonKeys cand := rfl
    have hjw : sumWeights ((normDict job).map (fun p => p.1))
        = sumWeights (canonKeys job) := rfl
    rw [hck, hjw, credit_sum_eq (by norm_num) job cand, zero_add, zero_add,
      if_pos htw_pos]

/-- Witness for C1 at the concrete call
`calculate_skill_match ["python", "gol"] ["py"]`. -/
theorem calculate_skill_match_weighted_witness :
    (["python", "gol"] ≠ ([] : List String)) ∧
      ((calculate_skill_match ["python", "gol"] ["py"]).1
          = round2 (sumCredits 0.85 (canonKeys ["py"]) (canonKeys ["python", "gol"])
              / sumWeights (canonKeys ["python", "gol"]) * 100)
        ∧ (calculate_skill_match_detailed ["python", "gol"] ["py"]).weighted_percentage
          = round2 (sumCredits 0.80 (canonKeys ["py"]) (canonKeys ["python", "gol"])
              / sumWeights (canonKeys ["python", "gol"]) * 100)) :=
  ⟨by decide, calculate_skill_match_weighted ["python", "gol"] ["py"] (by decide)⟩
